import Mathlib

/-!
Shallow embedding of the xwax timecode decoder (`timecoder.c`, provided in
`src/excrate.h` after the `excrate.h` header proper) and proofs about it.

Conventions of the embedding:

* `bits_t` is C `__uint128_t` in this fork.  All register values handled by
  the decoder stay below `2^113` (the widest catalog format has 113 bits), so
  no 128-bit operation here can wrap; machine integers are therefore modelled
  as `Nat`, with the width hypotheses carried by the theorems.
* C `signed int` values are modelled as `Int`; C integer division (which
  truncates toward zero) is `Int.tdiv`.  C `double` is modelled as `ℚ`
  (exact arithmetic; rounding of IEEE doubles is not modelled), and a C
  conversion from `double` to a signed integer type truncates toward zero.
* Structures from `timecoder.h`, the lookup table from `lut.c` and the
  filter helpers from `filters.c` are not part of `src/`; where they are
  needed they are modelled from the specification and marked as such.
* Recursive functions that must evaluate inside the kernel take an explicit
  fuel argument (first argument) so that they reduce by structural recursion;
  the fuel is always chosen at call sites to dominate the recursion depth.
-/

set_option maxRecDepth 4000000

/-! ### Definitions: the shallow embedding of the decoder -/

/-- Population-count loop of `lfsr` (`timecoder.c`): `xrs` accumulates
`taken & 0x1` while `taken` is shifted right until it is zero.  The first
argument is fuel; `countOnes n n` runs the loop to completion because the
loop variable at least halves each iteration. -/
def countOnes : Nat → Nat → Nat
  | 0, _ => 0
  | fuel+1, n => if n = 0 then 0 else (n &&& 1) + countOnes fuel (n >>> 1)

/-- `lfsr(code, taps)` from `timecoder.c`: parity of `code & taps`. -/
def lfsr (code taps : Nat) : Nat :=
  countOnes (code &&& taps) (code &&& taps) &&& 1

/-- Timecode definition (`struct timecode_def`).  The struct itself lives in
`timecoder.h`, which is not under `src/`; its fields are modelled from the
specification §3.1 (`name, desc, resolution, bits, seed, taps, length, safe,
flags` plus the lazily built lookup table state `lookup`/`lut`). -/
structure timecode_def where
  name : String
  desc : String
  resolution : Nat
  flags : Nat
  bits : Nat
  seed : Nat
  taps : Nat
  length : Nat
  safe : Nat
  lookup : Bool
  lut : List Nat
  deriving Repr, DecidableEq

/-- `SWITCH_PHASE`: tone phase difference of 270 (not 90) degrees. -/
def SWITCH_PHASE : Nat := 0x1

/-- `SWITCH_PRIMARY`: use left channel (not right) as primary. -/
def SWITCH_PRIMARY : Nat := 0x2

/-- `SWITCH_POLARITY`: read bit values in negative (not positive). -/
def SWITCH_POLARITY : Nat := 0x4

/-- `OFFSET_MODULATION`: offset modulation used for Traktor MK2 timecodes. -/
def OFFSET_MODULATION : Nat := 0x8

/-- `UINT128(hi, lo)` macro: `((__uint128_t)(hi)) << 64 | (lo)`. -/
def UINT128 (hi lo : Nat) : Nat := (hi <<< 64) ||| lo

def serato_2a : timecode_def :=
  { name := "serato_2a", desc := "Serato 2nd Ed., side A",
    resolution := 1000, flags := 0, bits := 20, seed := 0x59017,
    taps := 0x361e4, length := 712000, safe := 707000,
    lookup := false, lut := [] }

def serato_2b : timecode_def :=
  { name := "serato_2b", desc := "Serato 2nd Ed., side B",
    resolution := 1000, flags := 0, bits := 20, seed := 0x8f3c6,
    taps := 0x4f0d8, length := 922000, safe := 917000,
    lookup := false, lut := [] }

def serato_cd : timecode_def :=
  { name := "serato_cd", desc := "Serato CD",
    resolution := 1000, flags := 0, bits := 20, seed := 0xd8b40,
    taps := 0x34d54, length := 950000, safe := 940000,
    lookup := false, lut := [] }

def traktor_a : timecode_def :=
  { name := "traktor_a", desc := "Traktor Scratch, side A",
    resolution := 2000,
    flags := SWITCH_PRIMARY ||| SWITCH_POLARITY ||| SWITCH_PHASE,
    bits := 23, seed := 0x134503, taps := 0x041040,
    length := 1500000, safe := 1480000,
    lookup := false, lut := [] }

def traktor_b : timecode_def :=
  { name := "traktor_b", desc := "Traktor Scratch, side B",
    resolution := 2000,
    flags := SWITCH_PRIMARY ||| SWITCH_POLARITY ||| SWITCH_PHASE,
    bits := 23, seed := 0x32066c, taps := 0x041040,
    length := 2110000, safe := 2090000,
    lookup := false, lut := [] }

def traktor_mk2_a : timecode_def :=
  { name := "traktor_mk2_a", desc := "Traktor Scratch MK2, side A",
    resolution := 2500, flags := OFFSET_MODULATION, bits := 110,
    seed := UINT128 0x339c1f39f18c 0x7fe0063f8f83e0f9,
    taps := UINT128 0x400000000040 0x0000010800000001,
    length := 1620000, safe := 1600000,
    lookup := false, lut := [] }

def traktor_mk2_b : timecode_def :=
  { name := "traktor_mk2_b", desc := "Traktor Scratch MK2, side B",
    resolution := 2500, flags := OFFSET_MODULATION, bits := 110,
    seed := UINT128 0x20e73fc0707c 0xf8c00e7ffcf807c0,
    taps := UINT128 0x400000000040 0x0000010800000001,
    length := 2295000, safe := 2285000,
    lookup := false, lut := [] }

def traktor_mk2_cd : timecode_def :=
  { name := "traktor_mk2_cd", desc := "Traktor Scratch MK2, CD",
    resolution := 3000, flags := OFFSET_MODULATION, bits := 113,
    seed := UINT128 0x1f9fff01f1ff9 0xfe7f9c1ff9cff3e3,
    taps := UINT128 0x400000000000 0x1000010800000001,
    length := 4950000, safe := 4940000,
    lookup := false, lut := [] }

def mixvibes_v2 : timecode_def :=
  { name := "mixvibes_v2", desc := "MixVibes V2",
    resolution := 1300, flags := SWITCH_PHASE, bits := 20,
    seed := 0x22c90, taps := 0x00008,
    length := 950000, safe := 923000,
    lookup := false, lut := [] }

def mixvibes_7inch : timecode_def :=
  { name := "mixvibes_7inch", desc := "MixVibes 7\"",
    resolution := 1300, flags := SWITCH_PHASE, bits := 20,
    seed := 0x22c90, taps := 0x00008,
    length := 312000, safe := 310000,
    lookup := false, lut := [] }

def pioneer_a : timecode_def :=
  { name := "pioneer_a", desc := "Pioneer RekordBox DVS Control Vinyl, side A",
    resolution := 1000, flags := SWITCH_POLARITY, bits := 20,
    seed := 0x78370, taps := 0x7933a,
    length := 635000, safe := 614000,
    lookup := false, lut := [] }

def pioneer_b : timecode_def :=
  { name := "pioneer_b", desc := "Pioneer RekordBox DVS Control Vinyl, side B",
    resolution := 1000, flags := SWITCH_POLARITY, bits := 20,
    seed := 0xf7012, taps := 0x2ef1c,
    length := 918500, safe := 913000,
    lookup := false, lut := [] }

/-- `static struct timecode_def timecodes[]`, the built-in catalog. -/
def timecodes : List timecode_def :=
  [serato_2a, serato_2b, serato_cd, traktor_a, traktor_b,
   traktor_mk2_a, traktor_mk2_b, traktor_mk2_cd,
   mixvibes_v2, mixvibes_7inch, pioneer_a, pioneer_b]

/-- `fwd(current, def)`: LFSR in the forward direction; the new bit enters
at the MSB and the register shifts right by one. -/
def fwd (current : Nat) (d : timecode_def) : Nat :=
  (current >>> 1) ||| (lfsr current (d.taps ||| 1) <<< (d.bits - 1))

/-- `rev(current, def)`: LFSR in the reverse direction; the new bit enters
at the LSB and the register shifts left by one under the width mask.
All arithmetic here is performed on `bits_t` (`__uint128_t`); the `one`
local variable of the C code makes every shift a 128-bit shift. -/
def rev (current : Nat) (d : timecode_def) : Nat :=
  let taps_shifted := d.taps >>> 1
  let bits_shifted := 1 <<< (d.bits - 1)
  let mask := (1 <<< d.bits) - 1
  ((current <<< 1) &&& mask) ||| lfsr current (taps_shifted ||| bits_shifted)

/-- Parity of the population count, the mathematical content of `lfsr`. -/
def par (n : Nat) : Nat := countOnes n n % 2

/-- C conversion of a `double` (modelled as `ℚ`) to a signed integer type:
truncation toward zero. -/
def cTrunc (q : ℚ) : Int := q.num.tdiv (q.den : Int)

/-- `ZERO_THRESHOLD`: `128 << 16`. -/
def ZERO_THRESHOLD : Int := 128 * 2 ^ 16

/-- `ZERO_RC`: time constant for the zero/rumble filter. -/
def ZERO_RC : ℚ := 1 / 1000

/-- `REF_PEAKS_AVG`: exponential average window, in wave cycles. -/
def REF_PEAKS_AVG : Int := 48

/-- `VALID_BITS`: number of correct bits before the timecode is valid. -/
def VALID_BITS : Nat := 24

/-- `MONITOR_DECAY_EVERY`, in samples. -/
def MONITOR_DECAY_EVERY : Int := 512

/-- `INT_MAX` for 32-bit `signed int`. -/
def INT_MAX : Int := 2147483647

/-- One channel of the decoder (`struct timecoder_channel`, modelled from
the specification §3.2: `positive`, `zero`, `swapped`, `crossing_ticker`). -/
structure timecoder_channel where
  positive : Bool
  zero : Int
  crossing_ticker : Int
  swapped : Bool
  deriving Repr, DecidableEq

/-- Modelled from the spec: the circular buffer used by the
offset-modulation path (§3.3, size 10); `cbuf.h` is not part of `src/`. -/
structure cbuf_t where
  array : List Int
  size : Nat
  read_ptr : Nat
  write_ptr : Nat
  deriving Repr, DecidableEq

/-- Modelled from the spec: `cbuf_push` stores the sample at the write
pointer and advances it modulo the buffer size. -/
def cbuf_push (c : cbuf_t) (v : Int) : cbuf_t :=
  { c with array := c.array.set c.write_ptr v,
           write_ptr := (c.write_ptr + 1) % c.size }

/-- Modelled from the spec §6.2: the pitch collaborator accumulates observed
displacements; we record the sequence of observations passed to
`pitch_dt_observation`. -/
def pitch_init : List ℚ := []

/-- Modelled from the spec §6.2: one pitch observation. -/
def pitch_dt_observation (p : List ℚ) (dx : ℚ) : List ℚ := p ++ [dx]

/-- The timecode decoder state (`struct timecoder`).  Field types follow the
conventions at the top of the file; `mon` is `none` while no monitor is
allocated. -/
structure timecoder where
  def_ : timecode_def
  speed : ℚ
  dt : ℚ
  zero_alpha : ℚ
  threshold : Int
  forwards : Bool
  primary : timecoder_channel
  secondary : timecoder_channel
  pitch : List ℚ
  ref_level : Int
  bitstream : Nat
  timecode : Nat
  valid_counter : Nat
  timecode_ticker : Nat
  mon : Option (List Nat)
  mon_size : Int
  mon_counter : Int
  cbuf : cbuf_t
  deriving DecidableEq

/-- Modelled from the spec §6.2: the process-wide filter state behind the
externs `ema_primary_old`, `ema_secondary_old`, `primary_old`,
`secondary_old`, `left_old` and `right_old` (`filters.h` is not part of
`src/`). -/
structure filter_state where
  ema_primary_old : ℚ
  ema_secondary_old : ℚ
  primary_old : ℚ
  secondary_old : ℚ
  left_old : ℚ
  right_old : ℚ
  deriving DecidableEq

/-- Modelled from the spec §6.2: single-pole EMA, result and new state. -/
def ema (x prev alpha : ℚ) : ℚ × ℚ :=
  let y := alpha * x + (1 - alpha) * prev
  (y, y)

/-- Modelled from the spec §6.2: discrete derivative, result and new state. -/
def discrete_derivative (x prev : ℚ) : ℚ × ℚ := (x - prev, x)

/-- `init_channel`: initialise filter values for one channel.  Only
`positive` and `zero` are written by the C code. -/
def init_channel (ch : timecoder_channel) : timecoder_channel :=
  { ch with positive := false, zero := 0 }

/-- The uninitialised-read loop of `timecoder_init` for offset-modulation
formats: entries below the previous `cbuf.size` are zeroed before the size
is set to 10. -/
def zero_fill (n : Nat) (l : List Int) : List Int :=
  l.mapIdx (fun i v => if i < n then 0 else v)

/-- `timecoder_init`: initialise a decoder at the given reference speed.
The C function writes into caller-provided memory, so the model takes the
previous state `tc` and overwrites the fields the C code assigns.  The
`assert(def != NULL)` and `assert(def->lookup)` preconditions appear as
hypotheses of the theorems that use reachability. -/
def timecoder_init (tc : timecoder) (d : timecode_def) (speed : ℚ)
    (sample_rate : Nat) (phono : Bool) : timecoder :=
  let dt : ℚ := 1 / sample_rate
  { tc with
    def_ := d, speed := speed, dt := dt,
    zero_alpha := dt / (ZERO_RC + dt),
    threshold := if phono then Int.tdiv ZERO_THRESHOLD 32 else ZERO_THRESHOLD,
    forwards := true,
    primary := init_channel tc.primary,
    secondary := init_channel tc.secondary,
    pitch := pitch_init,
    ref_level := INT_MAX,
    bitstream := 0, timecode := 0,
    valid_counter := 0, timecode_ticker := 0,
    mon := none,
    cbuf := if d.flags &&& OFFSET_MODULATION ≠ 0 then
        { array := zero_fill tc.cbuf.size tc.cbuf.array,
          size := 10, read_ptr := 0, write_ptr := 0 }
      else tc.cbuf }

/-- `timecoder_monitor_init` (allocation failure is not modelled). -/
def timecoder_monitor_init (tc : timecoder) (size : Nat) : timecoder :=
  { tc with mon := some (List.replicate (size * size) 0),
            mon_size := (size : Int), mon_counter := 0 }

/-- `timecoder_monitor_clear`. -/
def timecoder_monitor_clear (tc : timecoder) : timecoder :=
  { tc with mon := none }

/-- `detect_zero_crossing`: update channel information with axis-crossings.
The final `zero` update is the C compound assignment
`ch->zero += alpha * (v - ch->zero)` whose right-hand side is computed in
`double` and truncated back to `signed int`. -/
def detect_zero_crossing (ch : timecoder_channel) (v : Int) (alpha : ℚ)
    (threshold : Int) : timecoder_channel :=
  let ch1 := { ch with crossing_ticker := ch.crossing_ticker + 1,
                       swapped := false }
  let ch2 :=
    if v > ch1.zero + threshold ∧ ch1.positive = false then
      { ch1 with swapped := true, positive := true, crossing_ticker := 0 }
    else if v < ch1.zero - threshold ∧ ch1.positive = true then
      { ch1 with swapped := true, positive := false, crossing_ticker := 0 }
    else ch1
  { ch2 with zero := cTrunc ((ch2.zero : ℚ) + alpha * ((v - ch2.zero : Int) : ℚ)) }

/-- `update_monitor`: plot a sample in the x-y monitor.  Returns `none`
exactly when the `assert(ref > 0)` in the C code fails (the monitor is
present and `ref_level ≤ 0`); the decay of the raster and the counter
increment happen before the assertion, as in the source. -/
def update_monitor (tc : timecoder) (x y : Int) : Option timecoder :=
  match tc.mon with
  | none => some tc
  | some mon =>
    let size : Int := tc.mon_size
    let ref : Int := tc.ref_level
    let counter := tc.mon_counter + 1
    let mon1 := if counter % MONITOR_DECAY_EVERY = 0 then
        mon.map (fun p => if p ≠ 0 then p * 7 / 8 else p)
      else mon
    if ref > 0 then
      let px := Int.tdiv size 2 + Int.tdiv (Int.tdiv (x * size) ref) 8
      let py := Int.tdiv size 2 + Int.tdiv (Int.tdiv (y * size) ref) 8
      let tc1 := { tc with mon := some mon1, mon_counter := counter }
      if px < 0 ∨ px ≥ size ∨ py < 0 ∨ py ≥ size then some tc1
      else some { tc1 with mon := some (mon1.set (py * size + px).toNat 0xff) }
    else none

/-- The C expression `(1 << tc->def->bits) - 1` in the reverse branch of
`process_bitstream` shifts the `int` literal `1`, not a `bits_t` value: it
is well defined only when `bits ≤ 30` (for larger widths, including the
110/113-bit MK2 formats, the shift is undefined behaviour in C). -/
def pb_mask_int (bits : Nat) : Option Nat :=
  if bits ≤ 30 then some ((1 <<< bits) - 1) else none

/-- The direction-dependent shift step of `process_bitstream`: the new
`timecode` prediction and the new `bitstream` register, given the decoded
bit `b`. -/
def pb_shift (tc : timecoder) (b : Nat) : Option (Nat × Nat) :=
  if tc.forwards then
    some (fwd tc.timecode tc.def_,
          (tc.bitstream >>> 1) + (b <<< (tc.def_.bits - 1)))
  else
    match pb_mask_int tc.def_.bits with
    | none => none
    | some mask => some (rev tc.timecode tc.def_,
                         ((tc.bitstream <<< 1) &&& mask) + b)

/-- `process_bitstream`: extract one bit from the sample value `m` and score
validity.  Both branches of the C `if` compute `b = m > tc->ref_level`; the
offset-modulation branch additionally pushes `m` into the circular buffer. -/
def process_bitstream (tc : timecoder) (m : Int) : Option timecoder :=
  let b : Nat := if m > tc.ref_level then 1 else 0
  let tc0 := if tc.def_.flags &&& OFFSET_MODULATION ≠ 0 then
      { tc with cbuf := cbuf_push tc.cbuf m }
    else tc
  match pb_shift tc b with
  | none => none
  | some (tcode, bstream) =>
    let scored : Nat × Nat :=
      if tcode = bstream then (tcode, tc0.valid_counter + 1) else (bstream, 0)
    some { tc0 with
      timecode := scored.1, bitstream := bstream, valid_counter := scored.2,
      timecode_ticker := 0,
      ref_level := tc0.ref_level - Int.tdiv tc0.ref_level REF_PEAKS_AVG
                     + Int.tdiv m REF_PEAKS_AVG }

/-- The signals fed to the zero-crossing detectors by `process_sample`:
for offset-modulation formats they are the discrete derivatives of the
EMA-filtered inputs (`alpha = 0.3`), otherwise the raw inputs.  Returns the
primary signal, the secondary signal and the updated filter state. -/
def ps_inputs (tc : timecoder) (fs : filter_state) (primary secondary : Int) :
    Int × Int × filter_state :=
  if tc.def_.flags &&& OFFSET_MODULATION ≠ 0 then
    let alpha : ℚ := 3 / 10
    let e1 := ema (primary : ℚ) fs.ema_primary_old alpha
    let d1 := discrete_derivative e1.1 fs.primary_old
    let e2 := ema (secondary : ℚ) fs.ema_secondary_old alpha
    let d2 := discrete_derivative e2.1 fs.secondary_old
    (cTrunc d1.1, cTrunc d2.1,
     { fs with ema_primary_old := e1.2, primary_old := d1.2,
               ema_secondary_old := e2.2, secondary_old := d2.2 })
  else (primary, secondary, fs)

/-- The state of the primary channel after the crossing detection step of
`process_sample`. -/
def ps_primary (tc : timecoder) (fs : filter_state) (primary secondary : Int) :
    timecoder_channel :=
  detect_zero_crossing tc.primary (ps_inputs tc fs primary secondary).1
    tc.zero_alpha tc.threshold

/-- The state of the secondary channel after the crossing detection step of
`process_sample`. -/
def ps_secondary (tc : timecoder) (fs : filter_state) (primary secondary : Int) :
    timecoder_channel :=
  detect_zero_crossing tc.secondary (ps_inputs tc fs primary secondary).2.1
    tc.zero_alpha tc.threshold

/-- Direction inference of `process_sample` (the block guarded by
`tc->primary.swapped || tc->secondary.swapped`), applied to the decoder
state `tc1` whose channels have already been updated to `chp`/`chs`. -/
def ps_direction (tc1 : timecoder) (chp chs : timecoder_channel) : timecoder :=
  if chp.swapped ∨ chs.swapped then
    let f0 : Bool := if chp.swapped then chp.positive != chs.positive
                     else chp.positive == chs.positive
    let f1 : Bool := if tc1.def_.flags &&& SWITCH_PHASE ≠ 0 then !f0 else f0
    if f1 ≠ tc1.forwards then { tc1 with forwards := f1, valid_counter := 0 }
    else tc1
  else tc1

/-- Pitch observation step of `process_sample` (reads `tc->forwards` after
the direction update, as the source does). -/
def ps_pitch (tc2 : timecoder) (chp chs : timecoder_channel) : timecoder :=
  if ¬chp.swapped ∧ ¬chs.swapped then
    { tc2 with pitch := pitch_dt_observation tc2.pitch 0 }
  else
    let dx0 : ℚ := 1 / tc2.def_.resolution / 4
    let dx := if tc2.forwards = false then -dx0 else dx0
    { tc2 with pitch := pitch_dt_observation tc2.pitch dx }

/-- `process_sample`: process a single sample from the incoming audio.
`none` reports the undefined reverse-direction mask computation inside
`process_bitstream` (see `pb_mask_int`). -/
def process_sample (tc : timecoder) (fs : filter_state)
    (primary secondary : Int) : Option (timecoder × filter_state) :=
  let chp := ps_primary tc fs primary secondary
  let chs := ps_secondary tc fs primary secondary
  let fs' := (ps_inputs tc fs primary secondary).2.2
  let tc1 := { tc with primary := chp, secondary := chs }
  let tc2 := ps_direction tc1 chp chs
  let tc3 := ps_pitch tc2 chp chs
  if chs.swapped ∧ chp.positive = decide (tc.def_.flags &&& SWITCH_POLARITY = 0) then
    let m : Int := |Int.tdiv primary 2 - Int.tdiv chp.zero 2|
    match process_bitstream tc3 m with
    | none => none
    | some tc4 =>
      some ({ tc4 with timecode_ticker := tc4.timecode_ticker + 1 }, fs')
  else
    some ({ tc3 with timecode_ticker := tc3.timecode_ticker + 1 }, fs')

/-- `timecoder_submit`: submit and decode a block of interleaved stereo PCM.
Each 16-bit sample is up-converted by `<< 16` (modelled as `* 65536`). -/
def timecoder_submit (tc : timecoder) (fs : filter_state) :
    List (Int × Int) → Option (timecoder × filter_state)
  | [] => some (tc, fs)
  | (l, r) :: rest =>
    let left : Int := l * 65536
    let right : Int := r * 65536
    let ps : Int × Int :=
      if tc.def_.flags &&& SWITCH_PRIMARY ≠ 0 then (left, right)
      else (right, left)
    match process_sample tc fs ps.1 ps.2 with
    | none => none
    | some (tc1, fs1) =>
      if tc1.def_.flags &&& OFFSET_MODULATION ≠ 0 then
        let dl := discrete_derivative (left : ℚ) fs1.left_old
        let dr := discrete_derivative (right : ℚ) fs1.right_old
        let fs2 := { fs1 with left_old := dl.2, right_old := dr.2 }
        match update_monitor tc1 (cTrunc ((cTrunc dl.1 : ℚ) * (5 / 4)))
            (cTrunc ((cTrunc dr.1 : ℚ) * (5 / 4))) with
        | none => none
        | some tc2 => timecoder_submit tc2 fs2 rest
      else
        match update_monitor tc1 left right with
        | none => none
        | some tc2 => timecoder_submit tc2 fs1 rest

/-- `next_definition`: cycle to the next catalog entry with a built lookup,
searching cyclically from position `i`; the C `do … while` loop never
terminates when no entry qualifies, which the model reports as `none`
(fuel bounded by the catalog size). -/
def next_definition_loop (defs : List timecode_def) : Nat → Nat → Option Nat
  | 0, _ => none
  | fuel+1, i =>
    let j := (i + 1) % defs.length
    match defs[j]? with
    | none => none
    | some d => if d.lookup then some j else next_definition_loop defs fuel j

/-- `timecoder_cycle_definition`, for a decoder whose `def` points at
position `cur` of the catalog `defs`. -/
def timecoder_cycle_definition (tc : timecoder) (defs : List timecode_def)
    (cur : Nat) : Option timecoder :=
  match next_definition_loop defs defs.length cur with
  | none => none
  | some j =>
    match defs[j]? with
    | none => none
    | some d => some { tc with def_ := d, valid_counter := 0,
                               timecode_ticker := 0 }

/-- Modelled from the spec §3.4: lookup in the table maps a state to its
ordinal insertion position; absent keys give the sentinel
(`(unsigned __int128)-1` in C, `none` here).  `lut.c` is not part of
`src/`. -/
def lut_lookup : List Nat → Nat → Option Nat
  | [], _ => none
  | y :: ys, x => if y = x then some 0 else (lut_lookup ys x).map (· + 1)

/-- Modelled from the spec §3.4: `lut_push` appends a state; its position is
its insertion index. -/
def lut_push (lut : List Nat) (x : Nat) : List Nat := lut ++ [x]

/-- `timecoder_get_position`: the known position of the timecode, or `-1`.
The `when` argument models the caller's out-pointer: `none` is a NULL
pointer, `some w` a pointer to a variable holding `w`.  The result is the
return value, the final value behind the pointer, and the decoder state
after the call (the C function takes `struct timecoder *tc`).  Positions
fit in `signed int` because every catalog length is below `2^31`, and the
sentinel compares equal to `-1` after the C truncation to `signed int`. -/
def timecoder_get_position (tc : timecoder) (when : Option ℚ) :
    Int × Option ℚ × timecoder :=
  if tc.valid_counter ≤ VALID_BITS then (-1, when, tc)
  else
    match lut_lookup tc.def_.lut tc.bitstream with
    | none => (-1, when, tc)
    | some r =>
      let when' : Option ℚ := match when with
        | none => none
        | some _ => some ((tc.timecode_ticker : ℚ) * tc.dt)
      ((r : Int), when', tc)

/-- The loop body of `build_lookup`: `n` remaining iterations, current
register value, table built so far.  `none` reports a failed assertion
(either `lut_lookup(&def->lut, current) == (unsigned __int128)-1`, the
timecode-must-not-wrap check, or `rev(next) == current`, the symmetry
check). -/
def build_loop (d : timecode_def) : Nat → Nat → List Nat → Option (List Nat)
  | 0, _, acc => some acc
  | n+1, current, acc =>
    if lut_lookup acc current ≠ none then none
    else
      let next := fwd current d
      if rev next d ≠ current then none
      else build_loop d n next (lut_push acc current)

/-- `build_lookup`: build the lookup table for a timecode definition unless
it is already built (allocation failure of `lut_init` is not modelled). -/
def build_lookup (d : timecode_def) : Option timecode_def :=
  if d.lookup then some d
  else
    match build_loop d d.length d.seed [] with
    | none => none
    | some lut => some { d with lookup := true, lut := lut }

/-- States of one decoder (with the process-wide filter state) reachable
through the public operations.  `timecoder_init` may start from arbitrary
caller memory, mirroring the C API. -/
inductive Reachable : timecoder × filter_state → Prop
  | init (tc : timecoder) (d : timecode_def) (speed : ℚ) (sample_rate : Nat)
      (phono : Bool) (fs : filter_state) (hd : d.lookup = true) :
      Reachable (timecoder_init tc d speed sample_rate phono, fs)
  | submit (s : timecoder × filter_state) (pcm : List (Int × Int))
      (s' : timecoder × filter_state) (hs : Reachable s)
      (h : timecoder_submit s.1 s.2 pcm = some s') : Reachable s'
  | get_position (s : timecoder × filter_state) (when : Option ℚ)
      (hs : Reachable s) :
      Reachable ((timecoder_get_position s.1 when).2.2, s.2)
  | cycle (s : timecoder × filter_state) (defs : List timecode_def)
      (cur : Nat) (tc' : timecoder) (hs : Reachable s)
      (h : timecoder_cycle_definition s.1 defs cur = some tc') :
      Reachable (tc', s.2)
  | monitor_init (s : timecoder × filter_state) (size : Nat)
      (hs : Reachable s) : Reachable (timecoder_monitor_init s.1 size, s.2)
  | monitor_clear (s : timecoder × filter_state) (hs : Reachable s) :
      Reachable (timecoder_monitor_clear s.1, s.2)

/-- The decoder invariant used by several claims: the reference level is
at least one, and the predicted timecode equals the bitstream register. -/
def decoderInv (tc : timecoder) : Prop :=
  1 ≤ tc.ref_level ∧ tc.timecode = tc.bitstream

/-- A concrete decoder state used by witnesses (stands for the arbitrary
caller memory handed to `timecoder_init`, and as a base for literal
states). -/
def scratch_timecoder : timecoder :=
  { def_ := serato_2a, speed := 1, dt := 0, zero_alpha := 0, threshold := 0,
    forwards := true,
    primary := { positive := false, zero := 0, crossing_ticker := 0, swapped := false },
    secondary := { positive := false, zero := 0, crossing_ticker := 0, swapped := false },
    pitch := [], ref_level := 10, bitstream := 0, timecode := 0,
    valid_counter := 0, timecode_ticker := 0, mon := none, mon_size := 0,
    mon_counter := 0, cbuf := { array := [], size := 0, read_ptr := 0, write_ptr := 0 } }

/-- A concrete filter state used by witnesses. -/
def scratch_filter_state : filter_state :=
  { ema_primary_old := 0, ema_secondary_old := 0, primary_old := 0,
    secondary_old := 0, left_old := 0, right_old := 0 }

/-- A catalog entry with a built lookup table, as `timecoder_init` requires
(`build_lookup` has been run on it). -/
def lookupable_serato : timecode_def := { serato_2a with lookup := true }

/-- A concrete decoder state for the `timecoder_get_position` witnesses:
26 valid bits and a bitstream present in the (already built) table. -/
def c3tc : timecoder :=
  { scratch_timecoder with
    def_ := { serato_2a with lookup := true, lut := [7, 9] }
    bitstream := 9
    valid_counter := 26 }

/-- The forward LFSR step in linear (XOR) form. -/
def fwdL (bits taps x : Nat) : Nat :=
  (x >>> 1) ^^^ (par (x &&& (taps ||| 1)) <<< (bits - 1))

/-- One fold of the logarithmic parity network. -/
def pfold (s x : Nat) : Nat := (x ^^^ (x >>> s)) &&& ((1 <<< s) - 1)

/-- Parity of a 128-bit value by a logarithmic fold network. -/
def par128 (x : Nat) : Nat :=
  pfold 1 (pfold 2 (pfold 4 (pfold 8 (pfold 16 (pfold 32 (pfold 64 x))))))

/-- The forward LFSR step with the fast parity network. -/
def fwdF (bits taps x : Nat) : Nat :=
  (x >>> 1) ^^^ (par128 (x &&& (taps ||| 1)) <<< (bits - 1))

/-- Evaluation of a spread polynomial (one coefficient per 8-bit slot) at a
register value: the XOR over set slots `i` of the `i`-th forward image. -/
def evalS (bits taps : Nat) : Nat → Nat → Nat → Nat
  | 0, _, _ => 0
  | f+1, S, x =>
    if S = 0 then 0 else
    (if S &&& 1 = 1 then x else 0) ^^^
      evalS bits taps f (S >>> 8) (fwdL bits taps x)

/-- `evalS` with the fast step function, for kernel evaluation. -/
def evalF (bits taps : Nat) : Nat → Nat → Nat → Nat
  | 0, _, _ => 0
  | f+1, S, x =>
    if S = 0 then 0 else
    let y := fwdF bits taps x
    if y == y then
      (if S &&& 1 = 1 then x else 0) ^^^ evalF bits taps f (S >>> 8) y
    else 0

/-- Every base-256 digit of `w` is at most `m`. -/
def slotsLE (m w : Nat) : Prop := ∀ k, w / 256 ^ k % 256 ≤ m

/-- The spread mask: bit 0 of each of `f` 8-bit slots. -/
def M01 : Nat → Nat
  | 0 => 0
  | f+1 => 1 ||| (M01 f <<< 8)

/-- Spread carry-less multiplication: integer product masked to slot bit 0. -/
def smulM (MB u v : Nat) : Nat := (u * v) &&& MB

/-- Top-down spread reduction modulo the polynomial behind `gS` (fallback
path of the Barrett step; clears the `k` slots above slot `dg`). -/
def sredTop (gS dg : Nat) : Nat → Nat → Nat
  | 0, a => a
  | k+1, a =>
    let a' := if (a >>> (8*(dg+k))) &&& 1 = 1 then a ^^^ (gS <<< (8*k)) else a
    if a' == a' then sredTop gS dg k a' else 0

/-- Barrett reduction step in the spread domain. -/
def brtStep (gS ginvS MB W dg s : Nat) : Nat :=
  let q := (((s >>> (8*dg)) * ginvS) &&& MB) >>> (8*dg)
  let r := s ^^^ ((q * gS) &&& MB)
  if r == r then (if r < W then r else sredTop gS dg (dg+4) r) else 0

/-- Multiplication by the polynomial variable in the spread domain. -/
def szmulS (gS dg w : Nat) : Nat :=
  let w1 := w <<< 8
  if w1 == w1 then
    (if (w1 >>> (8*dg)) &&& 1 = 1 then w1 ^^^ gS else w1)
  else 0

/-- Modular exponentiation of the polynomial variable in the spread domain,
by square-and-multiply over the bits of the exponent. -/
def spowS (gS ginvS MB W dg : Nat) : Nat → Nat → Nat
  | 0, _ => 1
  | f+1, e =>
    if e = 0 then 1 else
    let h := spowS gS ginvS MB W dg f (e >>> 1)
    if h == h then
      let hh := brtStep gS ginvS MB W dg (smulM MB h h)
      if hh == hh then
        (if e &&& 1 = 1 then szmulS gS dg hh else hh)
      else 0
    else 0

/-- Fast modular exponentiation by squaring over the bits of the exponent. -/
def mpow (p : Nat) : Nat → Nat → Nat → Nat
  | 0, _, _ => 1 % p
  | f+1, a, e =>
    if e = 0 then 1 % p else
    let h := mpow p f a (e >>> 1)
    if h == h then
      let hh := h * h % p
      if e &&& 1 = 1 then hh * a % p else hh
    else 0

/-- Spread (one bit per 8-bit slot) of the annihilator polynomial of the
`s2a` group of formats. -/
def gS_s2a : Nat := 0x10000010100010100000000010101010000010001

/-- Spread of the Barrett inverse for `gS_s2a`. -/
def ginvS_s2a : Nat := 0x10000010100000101010101010001000101000000

/-- Spread (one bit per 8-bit slot) of the annihilator polynomial of the
`s2b` group of formats. -/
def gS_s2b : Nat := 0x10001000001010101000000000101000101000001

/-- Spread of the Barrett inverse for `gS_s2b`. -/
def ginvS_s2b : Nat := 0x10001000101000100010101000001000001010101

/-- Spread (one bit per 8-bit slot) of the annihilator polynomial of the
`scd` group of formats. -/
def gS_scd : Nat := 0x10000010100010000010100010001000100010001

/-- Spread of the Barrett inverse for `gS_scd`. -/
def ginvS_scd : Nat := 0x10000010100000001000001010000010101010100

/-- Spread (one bit per 8-bit slot) of the annihilator polynomial of the
`trk` group of formats. -/
def gS_trk : Nat := 0x10000000001000000000001000000000001000000000001

/-- Spread of the Barrett inverse for `gS_trk`. -/
def ginvS_trk : Nat := 0x10000000001000000000101000000010001000001010101

/-- Spread (one bit per 8-bit slot) of the annihilator polynomial of the
`mk2ab` group of formats. -/
def gS_mk2ab : Nat := 0x10000000000000000000000000000000000000000000000000000000000000000000000000000000100000000000000000000000000000000000000000000000000000000000100000000010000000000000000000000000000000000000000000000000000000000000000000001

/-- Spread of the Barrett inverse for `gS_mk2ab`. -/
def ginvS_mk2ab : Nat := 0x10000000000000000000000000000000000000000000000000000000000000000000000000000000100000000000000000000000000000000000000000000000000000000000100000000010000000001000000000000000000000000000000000000000000000000000000000001

/-- Spread (one bit per 8-bit slot) of the annihilator polynomial of the
`mk2cd` group of formats. -/
def gS_mk2cd : Nat := 0x10000010000000000000000000000000000000000000000000000000000000000000000000000000000000000000000000000000001000000000000000000000000000000000000000100000000010000000000000000000000000000000000000000000000000000000000000000000001

/-- Spread of the Barrett inverse for `gS_mk2cd`. -/
def ginvS_mk2cd : Nat := 0x10000010000010000010000010000010000010000010000010000010000010000010000010000010000010000010000010000010001010000010001010000010001010000010001010100010001000100010001000100010001000100010001000100010001000100010101000000010000

/-- Spread (one bit per 8-bit slot) of the annihilator polynomial of the
`mvb` group of formats. -/
def gS_mvb : Nat := 0x10000000000000000000000000000000001000001

/-- Spread of the Barrett inverse for `gS_mvb`. -/
def ginvS_mvb : Nat := 0x10000000000000000000000000000000001000001

/-- Spread (one bit per 8-bit slot) of the annihilator polynomial of the
`pioa` group of formats. -/
def gS_pioa : Nat := 0x10001010101000001000001010000010101000101

/-- Spread of the Barrett inverse for `gS_pioa`. -/
def ginvS_pioa : Nat := 0x10001010001000101000000010101010001000001

/-- Spread (one bit per 8-bit slot) of the annihilator polynomial of the
`piob` group of formats. -/
def gS_piob : Nat := 0x10000010001010100010101010000000101010001

/-- Spread of the Barrett inverse for `gS_piob`. -/
def ginvS_piob : Nat := 0x10000010001000100000000000001000100000001

/-! ### Theorems -/

theorem countOnes_fuel_irrel : ∀ f f' n, n ≤ f → n ≤ f' →
    countOnes f n = countOnes f' n := by
  intro f
  induction f using Nat.strong_induction_on with
  | _ f ih =>
    intro f' n hf hf'
    by_cases hn : n = 0
    · subst hn
      rcases f with _ | g <;> rcases f' with _ | g' <;> simp [countOnes]
    · rcases f with _ | g
      · omega
      rcases f' with _ | g'
      · omega
      have h2 : n >>> 1 = n / 2 := Nat.shiftRight_one n
      have hlt : n / 2 < n := Nat.div_lt_self (Nat.pos_of_ne_zero hn) one_lt_two
      simp only [countOnes, hn, if_false, h2]
      rw [ih g (by omega) g' (n / 2) (by omega) (by omega)]

theorem lfsr_eq_par (code taps : Nat) : lfsr code taps = par (code &&& taps) := by
  unfold lfsr par
  rw [Nat.and_one_is_mod]

theorem par_lt_two (n : Nat) : par n < 2 := Nat.mod_lt _ (by norm_num)

theorem par_zero : par 0 = 0 := rfl

theorem par_rec (n : Nat) : par n = (n % 2 + par (n / 2)) % 2 := by
  by_cases hn : n = 0
  · subst hn; rfl
  · unfold par
    have h1 : countOnes n n = (n &&& 1) + countOnes (n - 1) (n >>> 1) := by
      match n, hn with
      | m+1, _ => simp [countOnes]
    have h2 : n >>> 1 = n / 2 := Nat.shiftRight_one n
    have h3 : countOnes (n - 1) (n / 2) = countOnes (n / 2) (n / 2) := by
      apply countOnes_fuel_irrel
      · have := Nat.div_lt_self (Nat.pos_of_ne_zero hn) one_lt_two; omega
      · exact le_refl _
    rw [h1, h2, h3, Nat.and_one_is_mod]
    omega

theorem par_two_mul_add (a r : Nat) (hr : r < 2) : par (2 * a + r) = (par a + r) % 2 := by
  have h1 : (2 * a + r) % 2 = r := by omega
  have h2 : (2 * a + r) / 2 = a := by omega
  rw [par_rec, h1, h2, Nat.add_comm]

theorem par_xor (a b : Nat) : par (a ^^^ b) = (par a + par b) % 2 := by
  induction a using Nat.strong_induction_on generalizing b with
  | _ a ih =>
    by_cases ha : a = 0
    · subst ha
      simp [par_zero]
      exact (Nat.mod_eq_of_lt (par_lt_two b)).symm
    · have hlt : a / 2 < a := Nat.div_lt_self (Nat.pos_of_ne_zero ha) one_lt_two
      have hx2 : (a ^^^ b) / 2 = a / 2 ^^^ b / 2 := Nat.xor_div_two
      have hm : ((a ^^^ b) % 2 = 1) ↔ ¬(a % 2 = 1 ↔ b % 2 = 1) := Nat.xor_mod_two_eq_one
      have hrec := par_rec (a ^^^ b)
      have hreca := par_rec a
      have hrecb := par_rec b
      have hih := ih (a / 2) hlt (b / 2)
      have hpa := par_lt_two (a / 2)
      have hpb := par_lt_two (b / 2)
      rw [hx2, hih] at hrec
      omega

theorem par_two_pow (k : Nat) : par (2 ^ k) = 1 := by
  induction k with
  | zero => rfl
  | succ k ih =>
    have : (2 : Nat) ^ (k + 1) = 2 * 2 ^ k + 0 := by ring
    rw [this, par_two_mul_add _ _ (by norm_num), ih]

theorem par_two_mul (a : Nat) : par (2 * a) = par a := by
  rw [show 2 * a = 2 * a + 0 from rfl, par_two_mul_add _ _ (by norm_num)]
  exact Nat.mod_eq_of_lt (par_lt_two a)

theorem par_shiftLeft (a k : Nat) : par (a <<< k) = par a := by
  induction k with
  | zero => rfl
  | succ k ih =>
    rw [Nat.shiftLeft_succ, par_two_mul, ih]

theorem or_eq_xor_of_and_eq_zero {a b : Nat} (h : a &&& b = 0) : a ||| b = a ^^^ b := by
  apply Nat.eq_of_testBit_eq
  intro i
  have hi : (a.testBit i && b.testBit i) = false := by
    rw [← Nat.testBit_and, h]
    exact Nat.zero_testBit i
  simp only [Nat.testBit_or, Nat.testBit_xor]
  cases hab : a.testBit i <;> cases hbb : b.testBit i <;> simp_all

theorem add_eq_xor_of_and_eq_zero {a b : Nat} (h : a &&& b = 0) : a + b = a ^^^ b := by
  induction a using Nat.strong_induction_on generalizing b with
  | _ a ih =>
    by_cases ha : a = 0
    · subst ha; simp
    · have hlt : a / 2 < a := Nat.div_lt_self (Nat.pos_of_ne_zero ha) one_lt_two
      have hdiv : (a &&& b) / 2 = a / 2 &&& b / 2 := Nat.and_div_two
      rw [h] at hdiv
      have hih := ih (a / 2) hlt (Nat.zero_div 2 ▸ hdiv.symm)
      have hmod : ¬(a % 2 = 1 ∧ b % 2 = 1) := by
        intro hc
        have := Nat.and_mod_two_eq_one.mpr hc
        rw [h] at this
        simp at this
      have hx2 : (a ^^^ b) / 2 = a / 2 ^^^ b / 2 := Nat.xor_div_two
      have hxm : ((a ^^^ b) % 2 = 1) ↔ ¬(a % 2 = 1 ↔ b % 2 = 1) := Nat.xor_mod_two_eq_one
      omega

theorem or_eq_add_of_and_eq_zero {a b : Nat} (h : a &&& b = 0) : a ||| b = a + b := by
  rw [or_eq_xor_of_and_eq_zero h, add_eq_xor_of_and_eq_zero h]

theorem and_shiftLeft_eq_zero {a k : Nat} (c : Nat) (h : a < 2 ^ k) :
    a &&& (c <<< k) = 0 := by
  apply Nat.eq_of_testBit_eq
  intro i
  simp only [Nat.testBit_and, Nat.zero_testBit]
  rcases lt_or_ge i k with hik | hik
  · have : (c <<< k).testBit i = false := by
      rw [Nat.testBit_shiftLeft]
      simp [Nat.not_le.mpr hik]
    simp [this]
  · have : a.testBit i = false :=
      Nat.testBit_lt_two_pow (lt_of_lt_of_le h (Nat.pow_le_pow_right (by norm_num) hik))
    simp [this]

theorem shiftLeft_and_eq_zero {a k : Nat} (c : Nat) (h : a < 2 ^ k) :
    (c <<< k) &&& a = 0 := by
  rw [Nat.and_comm]
  exact and_shiftLeft_eq_zero c h

theorem shiftRight_one_and (a b : Nat) : (a >>> 1) &&& (b >>> 1) = (a &&& b) >>> 1 := by
  rw [Nat.shiftRight_one, Nat.shiftRight_one, Nat.shiftRight_one]
  exact Nat.and_div_two.symm

theorem and_or_two_pow_of_lt {a k : Nat} (u : Nat) (h : a < 2 ^ k) :
    a &&& (u ||| (1 <<< k)) = a &&& u := by
  apply Nat.eq_of_testBit_eq
  intro i
  simp only [Nat.testBit_and, Nat.testBit_or]
  by_cases hik : i = k
  · subst hik
    have ha : a.testBit i = false := Nat.testBit_lt_two_pow h
    simp [ha]
  · have hb : (1 <<< k).testBit i = false := by
      rw [Nat.shiftLeft_eq, one_mul, Nat.testBit_two_pow]
      simp [Ne.symm hik]
    simp [hb]

theorem or_and_self_right (u v : Nat) : (u ||| v) &&& v = v := by
  apply Nat.eq_of_testBit_eq
  intro i
  simp only [Nat.testBit_and, Nat.testBit_or]
  cases v.testBit i <;> simp

theorem and_or_self_left (u v : Nat) : v &&& (u ||| v) = v := by
  rw [Nat.and_comm]
  exact or_and_self_right u v

theorem lfsr_lt_two (code taps : Nat) : lfsr code taps < 2 := by
  rw [lfsr_eq_par]
  exact par_lt_two _

/-- Parity of a register AND-masked with `taps ||| 1`: the forced bottom tap
splits off the low bit. -/
theorem par_and_or_one (x t : Nat) :
    par (x &&& (t ||| 1)) = (x % 2 + par ((x &&& t) >>> 1)) % 2 := by
  have hmod : (x &&& (t ||| 1)) % 2 = x % 2 := by
    have h1 : ((x &&& (t ||| 1)) % 2 = 1) ↔ (x % 2 = 1 ∧ (t ||| 1) % 2 = 1) :=
      Nat.and_mod_two_eq_one
    have h2 : ((t ||| 1) % 2 = 1) ↔ (t % 2 = 1 ∨ (1 : Nat) % 2 = 1) :=
      Nat.or_mod_two_eq_one
    omega
  have hdiv : (x &&& (t ||| 1)) / 2 = (x &&& t) / 2 := by
    simp only [Nat.and_div_two, Nat.or_div_two]
    norm_num
  rw [par_rec, hmod, hdiv, Nat.shiftRight_one]

/-- `rev` undoes `fwd` on every register value of the format's width.  This
holds for arbitrary tap masks, including the MK2 masks whose top tap
coincides with the register width. -/
theorem rev_fwd (d : timecode_def) (hb : 1 ≤ d.bits) (x : Nat)
    (hx : x < 2 ^ d.bits) : rev (fwd x d) d = x := by
  set b := d.bits with hbdef
  set t := d.taps with htdef
  set p := lfsr x (t ||| 1) with hpdef
  have hp2 : p < 2 := lfsr_lt_two _ _
  have hxr : x >>> 1 < 2 ^ (b - 1) := by
    rw [Nat.shiftRight_one]
    have hpow : 2 ^ b = 2 ^ (b - 1) * 2 := by
      rw [← Nat.pow_succ]
      congr 1
      omega
    exact (Nat.div_lt_iff_lt_mul (by norm_num)).mpr (by omega)
  have hysum : fwd x d = (x >>> 1) + (p <<< (b - 1)) := by
    unfold fwd
    rw [or_eq_add_of_and_eq_zero (and_shiftLeft_eq_zero _ hxr)]
  have hyxor : fwd x d = (x >>> 1) ^^^ (p <<< (b - 1)) := by
    unfold fwd
    rw [or_eq_xor_of_and_eq_zero (and_shiftLeft_eq_zero _ hxr)]
  show rev (fwd x d) d = x
  unfold rev
  simp only [← hbdef, ← htdef]
  -- the shifted-left part
  have hmask : (1 <<< b) - 1 = 2 ^ b - 1 := by rw [Nat.shiftLeft_eq, one_mul]
  have hpart1 : ((fwd x d <<< 1) &&& ((1 <<< b) - 1)) = 2 * (x >>> 1) := by
    rw [hmask, Nat.and_pow_two_sub_one_eq_mod, Nat.shiftLeft_eq, hysum]
    have hexp : ((x >>> 1) + p <<< (b - 1)) * 2 ^ 1 =
        2 * (x >>> 1) + p * 2 ^ b := by
      rw [Nat.shiftLeft_eq]
      have h2b : 2 ^ (b - 1) * 2 = 2 ^ b := by
        rw [← Nat.pow_succ]
        congr 1
        omega
      calc ((x >>> 1) + p * 2 ^ (b - 1)) * 2 ^ 1
          = 2 * (x >>> 1) + p * (2 ^ (b - 1) * 2) := by ring
        _ = 2 * (x >>> 1) + p * 2 ^ b := by rw [h2b]
    rw [hexp, Nat.add_mul_mod_self_right]
    apply Nat.mod_eq_of_lt
    have h2b : 2 ^ (b - 1) * 2 = 2 ^ b := by
      rw [← Nat.pow_succ]
      congr 1
      omega
    omega
  -- the feedback part
  have hpart2 : lfsr (fwd x d) ((t >>> 1) ||| (1 <<< (b - 1))) = x % 2 := by
    rw [lfsr_eq_par, hyxor, Nat.and_xor_distrib_right]
    have hs1 : (x >>> 1) &&& ((t >>> 1) ||| (1 <<< (b - 1))) = (x &&& t) >>> 1 := by
      rw [and_or_two_pow_of_lt _ hxr, shiftRight_one_and]
    have hs2 : (p <<< (b - 1)) &&& ((t >>> 1) ||| (1 <<< (b - 1)))
        = p <<< (b - 1) := by
      interval_cases p
      · simp
      · simpa using and_or_self_left (t >>> 1) (1 <<< (b - 1))
    rw [hs1, hs2, par_xor, par_shiftLeft]
    have hp' : par p = p := by
      interval_cases p <;> rfl
    have hpval : p = (x % 2 + par ((x &&& t) >>> 1)) % 2 := by
      rw [hpdef, lfsr_eq_par, par_and_or_one]
    have hq2 := par_lt_two ((x &&& t) >>> 1)
    omega
  rw [hpart1, hpart2]
  have hfin : (2 * (x >>> 1)) &&& (x % 2) = 0 := by
    have hm2 : x % 2 < 2 := Nat.mod_lt _ (by norm_num)
    interval_cases hv : x % 2
    · simp
    · rw [Nat.and_one_is_mod]
      omega
  rw [or_eq_add_of_and_eq_zero hfin, Nat.shiftRight_one]
  omega

/-- `fwd` undoes `rev` on every register value of the format's width. -/
theorem fwd_rev (d : timecode_def) (hb : 1 ≤ d.bits) (x : Nat)
    (hx : x < 2 ^ d.bits) : fwd (rev x d) d = x := by
  set b := d.bits with hbdef
  set t := d.taps with htdef
  have h2b : 2 ^ (b - 1) * 2 = 2 ^ b := by
    rw [← Nat.pow_succ]
    congr 1
    omega
  have hpow_pos : 0 < 2 ^ (b - 1) := Nat.pos_pow_of_pos _ (by norm_num)
  set m' := x % 2 ^ (b - 1) with hmdef
  set c := x / 2 ^ (b - 1) with hcdef
  have hm' : m' < 2 ^ (b - 1) := Nat.mod_lt _ hpow_pos
  have hc : c < 2 := by
    rw [hcdef]
    exact (Nat.div_lt_iff_lt_mul hpow_pos).mpr (by omega)
  have hxsplit : x = m' + c * 2 ^ (b - 1) := by
    rw [hmdef, hcdef, Nat.add_comm, Nat.mul_comm]
    exact (Nat.div_add_mod x (2 ^ (b - 1))).symm
  clear_value m' c
  set q' := lfsr x ((t >>> 1) ||| (1 <<< (b - 1))) with hqdef
  have hq2 : q' < 2 := lfsr_lt_two _ _
  clear_value q'
  -- STEP A: the reverse feedback bit
  have hxxor : x = m' ^^^ (c <<< (b - 1)) := by
    rw [← add_eq_xor_of_and_eq_zero (and_shiftLeft_eq_zero c hm'), Nat.shiftLeft_eq]
    omega
  have hqval : q' = (par (m' &&& (t >>> 1)) + c) % 2 := by
    rw [hqdef, lfsr_eq_par, hxxor, Nat.and_xor_distrib_right, par_xor]
    have hs1 : m' &&& ((t >>> 1) ||| (1 <<< (b - 1))) = m' &&& (t >>> 1) :=
      and_or_two_pow_of_lt _ hm'
    have hs2 : par ((c <<< (b - 1)) &&& ((t >>> 1) ||| (1 <<< (b - 1)))) = c := by
      interval_cases c
      · simp [par_zero]
      · rw [and_or_self_left (t >>> 1) (1 <<< (b - 1)), par_shiftLeft]
        rfl
    rw [hs1, hs2]
  -- STEP B: the value of rev
  have hzval : rev x d = 2 * m' + q' := by
    unfold rev
    simp only [← hbdef, ← htdef, ← hqdef]
    have hmask : (1 <<< b) - 1 = 2 ^ b - 1 := by rw [Nat.shiftLeft_eq, one_mul]
    have hleft : (x <<< 1) &&& ((1 <<< b) - 1) = 2 * m' := by
      rw [hmask, Nat.and_pow_two_sub_one_eq_mod, Nat.shiftLeft_eq, pow_one,
        ← h2b, Nat.mul_mod_mul_right]
      rw [hmdef]
      omega
    rw [hleft]
    have hfin : (2 * m') &&& q' = 0 := by
      interval_cases hv : q'
      · simp
      · rw [Nat.and_one_is_mod]
        omega
    rw [or_eq_add_of_and_eq_zero hfin]
  -- STEP C: the forward step applied to it
  rw [hzval]
  unfold fwd
  simp only [← hbdef, ← htdef]
  have hzr : (2 * m' + q') >>> 1 = m' := by
    rw [Nat.shiftRight_one]
    omega
  have hfeed : lfsr (2 * m' + q') (t ||| 1) = c := by
    rw [lfsr_eq_par, par_and_or_one]
    have hzmod : (2 * m' + q') % 2 = q' := by omega
    have hand : ((2 * m' + q') &&& t) >>> 1 = m' &&& (t >>> 1) := by
      rw [← shiftRight_one_and, hzr]
    rw [hzmod, hand, hqval]
    have hi := par_lt_two (m' &&& (t >>> 1))
    have hc2 : c < 2 := hc
    omega
  rw [hzr, hfeed]
  rw [or_eq_add_of_and_eq_zero (and_shiftLeft_eq_zero c hm'), Nat.shiftLeft_eq]
  omega

theorem timecodes_bits_pos : ∀ d ∈ timecodes, 1 ≤ d.bits := by decide

/-- C2: for every timecode definition in the catalog and every register value
with at most `bits` significant bits (which includes every value reachable
from the seed), the one-step LFSR functions are mutually inverse:
`rev (fwd x) = x` and `fwd (rev x) = x`. -/
theorem C2_lfsr_steps_mutually_inverse :
    ∀ d ∈ timecodes, ∀ x < 2 ^ d.bits,
      rev (fwd x d) d = x ∧ fwd (rev x d) d = x := by
  intro d hd x hx
  exact ⟨rev_fwd d (timecodes_bits_pos d hd) x hx,
         fwd_rev d (timecodes_bits_pos d hd) x hx⟩

/-- Witness for C2 at the `serato_2a` seed. -/
theorem C2_lfsr_steps_mutually_inverse_witness :
    serato_2a ∈ timecodes ∧ 0x59017 < 2 ^ serato_2a.bits ∧
      (rev (fwd 0x59017 serato_2a) serato_2a = 0x59017 ∧
       fwd (rev 0x59017 serato_2a) serato_2a = 0x59017) :=
  ⟨by decide, by decide,
   C2_lfsr_steps_mutually_inverse serato_2a (by decide) 0x59017 (by decide)⟩

/-- C4 (counterexample): the built-in catalog does not contain 13 formats;
`timecodes` has exactly 12 entries, so the claimed count is wrong. -/
theorem C4_catalog_counterexample : timecodes.length ≠ 13 := by decide

/-- C4 (amended): the built-in catalog contains exactly 12 formats with the
names listed by the claim, and every entry's `resolution`, `bits`, `seed`,
`taps`, `length`, `safe` and `flags` equal the literal values of the source
table (the 110/113-bit seeds and taps being the `UINT128(hi, lo)`
combinations written out as single 128-bit literals). -/
theorem C4_catalog_values :
    timecodes.length = 12 ∧
    timecodes.map
      (fun d => (d.name, d.resolution, d.bits, d.seed, d.taps,
                 d.length, d.safe, d.flags)) =
      [("serato_2a", 1000, 20, 0x59017, 0x361e4, 712000, 707000, 0),
       ("serato_2b", 1000, 20, 0x8f3c6, 0x4f0d8, 922000, 917000, 0),
       ("serato_cd", 1000, 20, 0xd8b40, 0x34d54, 950000, 940000, 0),
       ("traktor_a", 2000, 23, 0x134503, 0x041040, 1500000, 1480000, 0x7),
       ("traktor_b", 2000, 23, 0x32066c, 0x041040, 2110000, 2090000, 0x7),
       ("traktor_mk2_a", 2500, 110,
        0x339c1f39f18c7fe0063f8f83e0f9, 0x4000000000400000010800000001,
        1620000, 1600000, 0x8),
       ("traktor_mk2_b", 2500, 110,
        0x20e73fc0707cf8c00e7ffcf807c0, 0x4000000000400000010800000001,
        2295000, 2285000, 0x8),
       ("traktor_mk2_cd", 3000, 113,
        0x1f9fff01f1ff9fe7f9c1ff9cff3e3, 0x4000000000001000010800000001,
        4950000, 4940000, 0x8),
       ("mixvibes_v2", 1300, 20, 0x22c90, 0x00008, 950000, 923000, 0x1),
       ("mixvibes_7inch", 1300, 20, 0x22c90, 0x00008, 312000, 310000, 0x1),
       ("pioneer_a", 1000, 20, 0x78370, 0x7933a, 635000, 614000, 0x4),
       ("pioneer_b", 1000, 20, 0xf7012, 0x2ef1c, 918500, 913000, 0x4)] := by
  exact ⟨by decide, rfl⟩

/-- C8: `detect_zero_crossing` first increments `crossing_ticker` and clears
`swapped`; then exactly when `v > zero + threshold` and `positive` is false
it sets `positive := true`, `swapped := true`, `crossing_ticker := 0`; else
exactly when `v < zero - threshold` and `positive` is true it sets
`positive := false`, `swapped := true`, `crossing_ticker := 0`; and in all
cases it finally updates `zero += alpha * (v - zero)` (computed in `double`
and truncated back to the integer field). -/
theorem C8_detect_zero_crossing (ch : timecoder_channel) (v : Int) (alpha : ℚ)
    (threshold : Int) :
    let ch' := detect_zero_crossing ch v alpha threshold
    ((v > ch.zero + threshold ∧ ch.positive = false) →
      ch'.positive = true ∧ ch'.swapped = true ∧ ch'.crossing_ticker = 0) ∧
    ((¬(v > ch.zero + threshold ∧ ch.positive = false) ∧
      (v < ch.zero - threshold ∧ ch.positive = true)) →
      ch'.positive = false ∧ ch'.swapped = true ∧ ch'.crossing_ticker = 0) ∧
    (ch'.swapped = true ↔
      ((v > ch.zero + threshold ∧ ch.positive = false) ∨
       (v < ch.zero - threshold ∧ ch.positive = true))) ∧
    (ch'.swapped = false →
      ch'.positive = ch.positive ∧
      ch'.crossing_ticker = ch.crossing_ticker + 1) ∧
    ch'.zero = cTrunc ((ch.zero : ℚ) + alpha * ((v - ch.zero : Int) : ℚ)) := by
  by_cases h1 : v > ch.zero + threshold ∧ ch.positive = false
  · have h2 : ¬(v < ch.zero - threshold ∧ ch.positive = true) := by
      rcases h1 with ⟨_, hb⟩
      simp [hb]
    simp [detect_zero_crossing, h1, h2]
  · by_cases h2 : v < ch.zero - threshold ∧ ch.positive = true
    · simp [detect_zero_crossing, h1, h2]
    · simp [detect_zero_crossing, h1, h2]

/-- Witness for C8 at a concrete channel state and sample. -/
theorem C8_detect_zero_crossing_witness :
    let ch : timecoder_channel :=
      { positive := false, zero := 0, crossing_ticker := 5, swapped := false }
    let ch' := detect_zero_crossing ch 9000000 (1 / 2) 8388608
    ((9000000 > ch.zero + 8388608 ∧ ch.positive = false) →
      ch'.positive = true ∧ ch'.swapped = true ∧ ch'.crossing_ticker = 0) ∧
    ((¬(9000000 > ch.zero + 8388608 ∧ ch.positive = false) ∧
      (9000000 < ch.zero - 8388608 ∧ ch.positive = true)) →
      ch'.positive = false ∧ ch'.swapped = true ∧ ch'.crossing_ticker = 0) ∧
    (ch'.swapped = true ↔
      ((9000000 > ch.zero + 8388608 ∧ ch.positive = false) ∨
       (9000000 < ch.zero - 8388608 ∧ ch.positive = true))) ∧
    (ch'.swapped = false →
      ch'.positive = ch.positive ∧
      ch'.crossing_ticker = ch.crossing_ticker + 1) ∧
    ch'.zero = cTrunc ((ch.zero : ℚ) + (1 / 2) * ((9000000 - ch.zero : Int) : ℚ)) :=
  C8_detect_zero_crossing
    { positive := false, zero := 0, crossing_ticker := 5, swapped := false }
    9000000 (1 / 2) 8388608

theorem tdiv_lt_of_one_le {a : Int} (h : 1 ≤ a) :
    Int.tdiv a 48 < a ∧ 0 ≤ Int.tdiv a 48 := by
  match a, h with
  | Int.ofNat (n+1), _ =>
    have hdiv : Int.tdiv (Int.ofNat (n+1)) 48 = Int.ofNat ((n+1) / 48) := rfl
    rw [hdiv]
    have hlt := Nat.div_lt_self (Nat.succ_pos n) (by norm_num : 1 < 48)
    constructor
    · exact Int.ofNat_lt.mpr hlt
    · exact Int.ofNat_nonneg _

theorem tdiv_nonneg_of_nonneg {a : Int} (h : 0 ≤ a) : 0 ≤ Int.tdiv a 48 := by
  match a, h with
  | Int.ofNat n, _ => exact Int.ofNat_nonneg _

theorem process_bitstream_some_fields {tc : timecoder} {m : Int}
    {tc' : timecoder} (h : process_bitstream tc m = some tc') :
    tc'.timecode = tc'.bitstream ∧
    tc'.ref_level = tc.ref_level - Int.tdiv tc.ref_level 48 + Int.tdiv m 48 ∧
    tc'.forwards = tc.forwards ∧ tc'.def_ = tc.def_ ∧ tc'.mon = tc.mon ∧
    tc'.timecode_ticker = 0 := by
  unfold process_bitstream at h
  split at h <;> split at h <;> dsimp only at h <;>
    (split at h
     · simp at h
     · simp only [Option.some.injEq] at h
       subst h
       refine ⟨?_, rfl, rfl, rfl, rfl, rfl⟩
       dsimp only
       split <;> simp_all)

theorem process_bitstream_inv {tc : timecoder} {m : Int} {tc' : timecoder}
    (hinv : decoderInv tc) (hm : 0 ≤ m) (h : process_bitstream tc m = some tc') :
    decoderInv tc' := by
  rcases hinv with ⟨href, _⟩
  obtain ⟨heq, href', _⟩ := process_bitstream_some_fields h
  refine ⟨?_, heq⟩
  rw [href']
  have h1 := tdiv_lt_of_one_le href
  have h2 := tdiv_nonneg_of_nonneg hm
  omega

theorem ps_direction_pres (tc1 : timecoder) (chp chs : timecoder_channel) :
    (ps_direction tc1 chp chs).ref_level = tc1.ref_level ∧
    (ps_direction tc1 chp chs).timecode = tc1.timecode ∧
    (ps_direction tc1 chp chs).bitstream = tc1.bitstream ∧
    (ps_direction tc1 chp chs).def_ = tc1.def_ ∧
    (ps_direction tc1 chp chs).mon = tc1.mon := by
  unfold ps_direction
  dsimp only
  repeat' split
  all_goals exact ⟨rfl, rfl, rfl, rfl, rfl⟩

theorem ps_pitch_pres (tc2 : timecoder) (chp chs : timecoder_channel) :
    (ps_pitch tc2 chp chs).ref_level = tc2.ref_level ∧
    (ps_pitch tc2 chp chs).timecode = tc2.timecode ∧
    (ps_pitch tc2 chp chs).bitstream = tc2.bitstream ∧
    (ps_pitch tc2 chp chs).def_ = tc2.def_ ∧
    (ps_pitch tc2 chp chs).mon = tc2.mon ∧
    (ps_pitch tc2 chp chs).forwards = tc2.forwards ∧
    (ps_pitch tc2 chp chs).valid_counter = tc2.valid_counter := by
  unfold ps_pitch
  split <;> exact ⟨rfl, rfl, rfl, rfl, rfl, rfl, rfl⟩

theorem update_monitor_pres {tc : timecoder} {x y : Int} {tc' : timecoder}
    (h : update_monitor tc x y = some tc') :
    tc'.ref_level = tc.ref_level ∧ tc'.timecode = tc.timecode ∧
    tc'.bitstream = tc.bitstream ∧ tc'.def_ = tc.def_ ∧
    tc'.valid_counter = tc.valid_counter ∧ tc'.forwards = tc.forwards ∧
    tc'.timecode_ticker = tc.timecode_ticker := by
  unfold update_monitor at h
  split at h
  · simp only [Option.some.injEq] at h
    subst h
    exact ⟨rfl, rfl, rfl, rfl, rfl, rfl, rfl⟩
  · dsimp only at h
    repeat' split at h
    all_goals
      first
        | (simp only [Option.some.injEq] at h
           subst h
           exact ⟨rfl, rfl, rfl, rfl, rfl, rfl, rfl⟩)
        | simp at h

theorem update_monitor_ne_none {tc : timecoder} (href : 1 ≤ tc.ref_level)
    (x y : Int) : update_monitor tc x y ≠ none := by
  unfold update_monitor
  split
  · simp
  · dsimp only
    rw [if_pos (by omega : tc.ref_level > 0)]
    split <;> simp

theorem decoderInv_update (tc tc' : timecoder)
    (hr : tc'.ref_level = tc.ref_level) (ht : tc'.timecode = tc.timecode)
    (hb : tc'.bitstream = tc.bitstream) (h : decoderInv tc) : decoderInv tc' := by
  unfold decoderInv at h ⊢
  rw [hr, ht, hb]
  exact h

theorem process_sample_inv {tc : timecoder} {fs : filter_state}
    {p s : Int} {tc' : timecoder} {fs' : filter_state}
    (hinv : decoderInv tc)
    (h : process_sample tc fs p s = some (tc', fs')) : decoderInv tc' := by
  have hinv1 : decoderInv { tc with primary := ps_primary tc fs p s,
                                    secondary := ps_secondary tc fs p s } :=
    decoderInv_update _ _ rfl rfl rfl hinv
  have hinv2 := decoderInv_update _ _
    (ps_direction_pres _ (ps_primary tc fs p s) (ps_secondary tc fs p s)).1
    (ps_direction_pres _ _ _).2.1 (ps_direction_pres _ _ _).2.2.1 hinv1
  have hinv3 := decoderInv_update _ _
    (ps_pitch_pres _ (ps_primary tc fs p s) (ps_secondary tc fs p s)).1
    (ps_pitch_pres _ _ _).2.1 (ps_pitch_pres _ _ _).2.2.1 hinv2
  unfold process_sample at h
  dsimp only at h
  split at h
  · -- bit-decoding branch
    split at h
    · simp at h
    · rename_i tc4 hpb
      simp only [Option.some.injEq, Prod.mk.injEq] at h
      obtain ⟨h1, _⟩ := h
      subst h1
      have hinv4 := process_bitstream_inv hinv3 (abs_nonneg _) hpb
      exact decoderInv_update _ _ rfl rfl rfl hinv4
  · simp only [Option.some.injEq, Prod.mk.injEq] at h
    obtain ⟨h1, _⟩ := h
    subst h1
    exact decoderInv_update _ _ rfl rfl rfl hinv3

theorem timecoder_submit_inv :
    ∀ (pcm : List (Int × Int)) (tc : timecoder) (fs : filter_state)
      (s' : timecoder × filter_state),
      decoderInv tc → timecoder_submit tc fs pcm = some s' →
      decoderInv s'.1 := by
  intro pcm
  induction pcm with
  | nil =>
    intro tc fs s' hinv h
    unfold timecoder_submit at h
    simp only [Option.some.injEq] at h
    subst h
    exact hinv
  | cons hd rest ih =>
    intro tc fs s' hinv h
    obtain ⟨l, r⟩ := hd
    unfold timecoder_submit at h
    dsimp only at h
    split at h
    · simp at h
    · rename_i tc1 fs1 hps
      have hinv1 : decoderInv tc1 := process_sample_inv hinv hps
      split at h
      · split at h
        · simp at h
        · rename_i tc2 hum
          exact ih _ _ _ (decoderInv_update _ _ (update_monitor_pres hum).1
            (update_monitor_pres hum).2.1 (update_monitor_pres hum).2.2.1 hinv1) h
      · split at h
        · simp at h
        · rename_i tc2 hum
          exact ih _ _ _ (decoderInv_update _ _ (update_monitor_pres hum).1
            (update_monitor_pres hum).2.1 (update_monitor_pres hum).2.2.1 hinv1) h

theorem get_position_state (tc : timecoder) (when : Option ℚ) :
    (timecoder_get_position tc when).2.2 = tc := by
  unfold timecoder_get_position
  split
  · rfl
  · split
    · rfl
    · rfl

theorem cycle_pres {tc : timecoder} {defs : List timecode_def} {cur : Nat}
    {tc' : timecoder} (h : timecoder_cycle_definition tc defs cur = some tc') :
    tc'.ref_level = tc.ref_level ∧ tc'.timecode = tc.timecode ∧
    tc'.bitstream = tc.bitstream := by
  unfold timecoder_cycle_definition at h
  split at h
  · simp at h
  · split at h
    · simp at h
    · simp only [Option.some.injEq] at h
      subst h
      exact ⟨rfl, rfl, rfl⟩

theorem reachable_decoderInv : ∀ s, Reachable s → decoderInv s.1 := by
  intro s h
  induction h with
  | init tc d speed rate phono fs hd =>
    exact ⟨by norm_num [timecoder_init, INT_MAX], rfl⟩
  | submit s pcm s' hs h ih => exact timecoder_submit_inv pcm s.1 s.2 s' ih h
  | get_position s when hs ih =>
    show decoderInv (timecoder_get_position s.1 when).2.2
    rw [get_position_state]
    exact ih
  | cycle s defs cur tc' hs h ih =>
    exact decoderInv_update _ _ (cycle_pres h).1 (cycle_pres h).2.1
      (cycle_pres h).2.2 ih
  | monitor_init s size hs ih => exact decoderInv_update _ _ rfl rfl rfl ih
  | monitor_clear s hs ih => exact decoderInv_update _ _ rfl rfl rfl ih

theorem process_bitstream_scoring {tc : timecoder} {m : Int} {tc' : timecoder}
    {tcode bstream : Nat}
    (h : process_bitstream tc m = some tc')
    (hstep : pb_shift tc (if m > tc.ref_level then 1 else 0) = some (tcode, bstream)) :
    (tcode = bstream → tc'.valid_counter = tc.valid_counter + 1 ∧
      tc'.timecode = tcode ∧ tc'.bitstream = bstream) ∧
    (tcode ≠ bstream → tc'.valid_counter = 0 ∧
      tc'.timecode = bstream ∧ tc'.bitstream = bstream) := by
  unfold process_bitstream at h
  dsimp only at h
  rw [hstep] at h
  dsimp only at h
  split at h <;>
    (simp only [Option.some.injEq] at h
     subst h
     constructor
     · intro he
       refine ⟨?_, ?_, rfl⟩ <;> dsimp only <;> simp [he]
     · intro he
       refine ⟨?_, ?_, rfl⟩ <;> dsimp only <;> simp [he])

/-- C5: on every decoded bit, after the direction-dependent shifts, if the
predicted `timecode` equals the new `bitstream` then `valid_counter` is
incremented, otherwise `timecode` is set to the bitstream and
`valid_counter` resets to 0; consequently `timecode = bitstream` after
`process_bitstream`, and on every reachable decoder state
`valid_counter = 0` whenever `timecode ≠ bitstream`. -/
theorem C5_validity_scoring_resync :
    (∀ (tc : timecoder) (m : Int) (tc' : timecoder) (tcode bstream : Nat),
       process_bitstream tc m = some tc' →
       pb_shift tc (if m > tc.ref_level then 1 else 0) = some (tcode, bstream) →
       ((tcode = bstream → tc'.valid_counter = tc.valid_counter + 1 ∧
           tc'.timecode = tcode ∧ tc'.bitstream = bstream) ∧
        (tcode ≠ bstream → tc'.valid_counter = 0 ∧
           tc'.timecode = bstream ∧ tc'.bitstream = bstream) ∧
        tc'.timecode = tc'.bitstream)) ∧
    (∀ tc fs, Reachable (tc, fs) →
       tc.timecode ≠ tc.bitstream → tc.valid_counter = 0) := by
  constructor
  · intro tc m tc' tcode bstream h hstep
    obtain ⟨h1, h2⟩ := process_bitstream_scoring h hstep
    exact ⟨h1, h2, (process_bitstream_some_fields h).1⟩
  · intro tc fs h hne
    exact absurd (reachable_decoderInv _ h).2 hne

/-- Witness for C5: one forward-direction decode step on a concrete state
(bit 0, matching prediction, counter increments). -/
theorem C5_validity_scoring_resync_witness :
    ((0 : Nat) = 0 →
      ({ scratch_timecoder with valid_counter := 1 } : timecoder).valid_counter
          = scratch_timecoder.valid_counter + 1 ∧
      ({ scratch_timecoder with valid_counter := 1 } : timecoder).timecode = 0 ∧
      ({ scratch_timecoder with valid_counter := 1 } : timecoder).bitstream = 0) ∧
    ((0 : Nat) ≠ 0 →
      ({ scratch_timecoder with valid_counter := 1 } : timecoder).valid_counter = 0 ∧
      ({ scratch_timecoder with valid_counter := 1 } : timecoder).timecode = 0 ∧
      ({ scratch_timecoder with valid_counter := 1 } : timecoder).bitstream = 0) ∧
    ({ scratch_timecoder with valid_counter := 1 } : timecoder).timecode
        = ({ scratch_timecoder with valid_counter := 1 } : timecoder).bitstream :=
  C5_validity_scoring_resync.1 scratch_timecoder 0
    { scratch_timecoder with valid_counter := 1 } 0 0 rfl rfl

theorem ps_direction_spec (tc1 : timecoder) (chp chs : timecoder_channel)
    (hsw : chp.swapped ∨ chs.swapped) :
    ∀ f1 : Bool,
      f1 = (if tc1.def_.flags &&& SWITCH_PHASE ≠ 0
            then !(if chp.swapped then chp.positive != chs.positive
                   else chp.positive == chs.positive)
            else (if chp.swapped then chp.positive != chs.positive
                  else chp.positive == chs.positive)) →
      (ps_direction tc1 chp chs).forwards = f1 ∧
      (f1 ≠ tc1.forwards → (ps_direction tc1 chp chs).valid_counter = 0) ∧
      (f1 = tc1.forwards →
        (ps_direction tc1 chp chs).valid_counter = tc1.valid_counter) := by
  intro f1 hf1
  unfold ps_direction
  rw [if_pos hsw]
  dsimp only
  rw [← hf1]
  split
  · rename_i hne
    exact ⟨rfl, fun _ => rfl, fun he => absurd he hne⟩
  · rename_i hne
    rw [not_ne_iff] at hne
    exact ⟨hne.symm, fun h2 => absurd hne h2, fun _ => rfl⟩

theorem process_sample_forwards {tc : timecoder} {fs : filter_state}
    {p s : Int} {tc' : timecoder} {fs' : filter_state}
    (h : process_sample tc fs p s = some (tc', fs')) :
    tc'.forwards =
      (ps_direction { tc with primary := ps_primary tc fs p s,
                              secondary := ps_secondary tc fs p s }
        (ps_primary tc fs p s) (ps_secondary tc fs p s)).forwards := by
  unfold process_sample at h
  dsimp only at h
  split at h
  · split at h
    · simp at h
    · rename_i tc4 hpb
      simp only [Option.some.injEq, Prod.mk.injEq] at h
      obtain ⟨h1, _⟩ := h
      subst h1
      show tc4.forwards = _
      rw [(process_bitstream_some_fields hpb).2.2.1]
      exact (ps_pitch_pres _ _ _).2.2.2.2.2.1
  · simp only [Option.some.injEq, Prod.mk.injEq] at h
    obtain ⟨h1, _⟩ := h
    subst h1
    exact (ps_pitch_pres _ _ _).2.2.2.2.2.1

/-- C7: whenever at least one channel crossed in a sample, the new direction
is `primary.positive != secondary.positive` if the primary crossed and
`primary.positive == secondary.positive` otherwise, inverted under the
`SWITCH_PHASE` flag; if it differs from the previous direction,
`forwards` is updated and `valid_counter` resets to 0, and otherwise the
direction step leaves `valid_counter` unchanged.  The updated direction is
the one the decoder state carries after `process_sample`. -/
theorem C7_direction_inference :
    ∀ (tc : timecoder) (fs : filter_state) (p s : Int),
      ((ps_primary tc fs p s).swapped ∨ (ps_secondary tc fs p s).swapped) →
      ∀ f1 : Bool,
        f1 = (if tc.def_.flags &&& SWITCH_PHASE ≠ 0
              then !(if (ps_primary tc fs p s).swapped
                     then (ps_primary tc fs p s).positive != (ps_secondary tc fs p s).positive
                     else (ps_primary tc fs p s).positive == (ps_secondary tc fs p s).positive)
              else (if (ps_primary tc fs p s).swapped
                    then (ps_primary tc fs p s).positive != (ps_secondary tc fs p s).positive
                    else (ps_primary tc fs p s).positive == (ps_secondary tc fs p s).positive)) →
        (ps_direction { tc with primary := ps_primary tc fs p s,
                                secondary := ps_secondary tc fs p s }
          (ps_primary tc fs p s) (ps_secondary tc fs p s)).forwards = f1 ∧
        (f1 ≠ tc.forwards →
          (ps_direction { tc with primary := ps_primary tc fs p s,
                                  secondary := ps_secondary tc fs p s }
            (ps_primary tc fs p s) (ps_secondary tc fs p s)).valid_counter = 0) ∧
        (f1 = tc.forwards →
          (ps_direction { tc with primary := ps_primary tc fs p s,
                                  secondary := ps_secondary tc fs p s }
            (ps_primary tc fs p s) (ps_secondary tc fs p s)).valid_counter
            = tc.valid_counter) ∧
        (∀ tc' fs', process_sample tc fs p s = some (tc', fs') →
          tc'.forwards = f1) := by
  intro tc fs p s hsw f1 hf1
  obtain ⟨h1, h2, h3⟩ := ps_direction_spec
    { tc with primary := ps_primary tc fs p s, secondary := ps_secondary tc fs p s }
    (ps_primary tc fs p s) (ps_secondary tc fs p s) hsw f1 hf1
  refine ⟨h1, h2, h3, ?_⟩
  intro tc' fs' h
  rw [process_sample_forwards h, h1]

/-- C9: the envelope update of `process_bitstream` keeps `ref_level ≥ 1`
(from `ref_level ≥ 1` and a non-negative magnitude), and on every reachable
decoder state `ref_level > 0`, so the `assert(ref > 0)` in `update_monitor`
cannot fail. -/
theorem C9_ref_level_positive :
    (∀ (tc : timecoder) (m : Int) (tc' : timecoder),
       1 ≤ tc.ref_level → 0 ≤ m → process_bitstream tc m = some tc' →
       1 ≤ tc'.ref_level ∧
       tc'.ref_level = tc.ref_level - Int.tdiv tc.ref_level REF_PEAKS_AVG
                         + Int.tdiv m REF_PEAKS_AVG) ∧
    (∀ (tc : timecoder) (fs : filter_state), Reachable (tc, fs) →
       0 < tc.ref_level ∧ ∀ x y : Int, update_monitor tc x y ≠ none) := by
  constructor
  · intro tc m tc' h1 h2 h
    obtain ⟨_, href, _⟩ := process_bitstream_some_fields h
    unfold REF_PEAKS_AVG
    refine ⟨?_, href⟩
    rw [href]
    have ha := tdiv_lt_of_one_le h1
    have hb := tdiv_nonneg_of_nonneg h2
    omega
  · intro tc fs h
    have hinv := reachable_decoderInv _ h
    have h1 : 1 ≤ tc.ref_level := hinv.1
    exact ⟨by omega, fun x y => update_monitor_ne_none h1 x y⟩

/-- Witness for C9: one decode step from the scratch state, and a freshly
initialised decoder. -/
theorem C9_ref_level_positive_witness :
    (1 ≤ scratch_timecoder.ref_level ∧ (0 : Int) ≤ 0 ∧
     1 ≤ ({ scratch_timecoder with valid_counter := 1 } : timecoder).ref_level ∧
     ({ scratch_timecoder with valid_counter := 1 } : timecoder).ref_level
       = scratch_timecoder.ref_level
           - Int.tdiv scratch_timecoder.ref_level REF_PEAKS_AVG
           + Int.tdiv 0 REF_PEAKS_AVG) ∧
    (0 < (timecoder_init scratch_timecoder lookupable_serato 1 44100 false).ref_level ∧
     update_monitor (timecoder_init scratch_timecoder lookupable_serato 1 44100 false)
       3 4 ≠ none) :=
  have h1 := C9_ref_level_positive.1 scratch_timecoder 0
    { scratch_timecoder with valid_counter := 1 } (by decide) (by decide) rfl
  have h2 := C9_ref_level_positive.2
    (timecoder_init scratch_timecoder lookupable_serato 1 44100 false)
    scratch_filter_state
    (Reachable.init scratch_timecoder lookupable_serato 1 44100 false
      scratch_filter_state rfl)
  ⟨⟨by decide, by decide, h1.1, h1.2⟩, h2.1, h2.2 3 4⟩

/-- C3: `timecoder_get_position` returns `-1` (no position) exactly when
fewer than 25 bits are valid or the bitstream is absent from the format's
lookup table; otherwise it returns the table position, and a supplied
out-parameter receives `timecode_ticker * dt`. -/
theorem C3_get_position_error_handling :
    ∀ (tc : timecoder) (when : Option ℚ),
      ((timecoder_get_position tc when).1 = -1 ↔
        (tc.valid_counter ≤ VALID_BITS ∨
         lut_lookup tc.def_.lut tc.bitstream = none)) ∧
      (∀ r : Nat, VALID_BITS < tc.valid_counter →
        lut_lookup tc.def_.lut tc.bitstream = some r →
        (timecoder_get_position tc when).1 = (r : Int) ∧
        (when = none → (timecoder_get_position tc when).2.1 = none) ∧
        (∀ w : ℚ, when = some w →
          (timecoder_get_position tc when).2.1
            = some ((tc.timecode_ticker : ℚ) * tc.dt))) := by
  intro tc when
  unfold timecoder_get_position
  by_cases hv : tc.valid_counter ≤ VALID_BITS
  · rw [if_pos hv]
    refine ⟨⟨fun _ => Or.inl hv, fun _ => rfl⟩, ?_⟩
    intro r hlt _
    exact absurd hv (by omega)
  · rw [if_neg hv]
    cases hl : lut_lookup tc.def_.lut tc.bitstream with
    | none =>
      refine ⟨⟨fun _ => Or.inr rfl, fun _ => rfl⟩, ?_⟩
      intro r _ hr
      exact Option.noConfusion hr
    | some r0 =>
      constructor
      · constructor
        · intro h1
          dsimp only at h1
          omega
        · intro h2
          rcases h2 with h2 | h2
          · exact absurd h2 hv
          · exact Option.noConfusion h2
      · intro r hlt hr
        obtain rfl : r0 = r := Option.some.inj hr
        refine ⟨rfl, fun hw => ?_, fun w hw => ?_⟩ <;> subst hw <;> rfl

/-- Witness for C3: a state with 26 valid bits and a bitstream at position 1
of its table, queried with a non-NULL out-pointer. -/
theorem C3_get_position_error_handling_witness :
    ((timecoder_get_position c3tc (some 0)).1 = -1 ↔
      (c3tc.valid_counter ≤ VALID_BITS ∨
       lut_lookup c3tc.def_.lut c3tc.bitstream = none)) ∧
    VALID_BITS < c3tc.valid_counter ∧
    lut_lookup c3tc.def_.lut c3tc.bitstream = some 1 ∧
    (timecoder_get_position c3tc (some 0)).1 = ((1 : Nat) : Int) ∧
    (timecoder_get_position c3tc (some 0)).2.1
      = some ((c3tc.timecode_ticker : ℚ) * c3tc.dt) :=
  have h := C3_get_position_error_handling c3tc (some 0)
  ⟨h.1, by decide, by decide, (h.2 1 (by decide) (by decide)).1,
   (h.2 1 (by decide) (by decide)).2.2 0 rfl⟩

/-- C10: `timecoder_get_position` is a pure observer of the decoder state:
the state after the call is the state before it, so in particular every
listed field is unchanged, on both the unknown-result path and the
known-position path. -/
theorem C10_get_position_pure :
    ∀ (tc : timecoder) (when : Option ℚ),
      (timecoder_get_position tc when).2.2 = tc ∧
      (timecoder_get_position tc when).2.2.def_ = tc.def_ ∧
      (timecoder_get_position tc when).2.2.bitstream = tc.bitstream ∧
      (timecoder_get_position tc when).2.2.timecode = tc.timecode ∧
      (timecoder_get_position tc when).2.2.valid_counter = tc.valid_counter ∧
      (timecoder_get_position tc when).2.2.timecode_ticker = tc.timecode_ticker ∧
      (timecoder_get_position tc when).2.2.primary = tc.primary ∧
      (timecoder_get_position tc when).2.2.secondary = tc.secondary ∧
      (timecoder_get_position tc when).2.2.ref_level = tc.ref_level ∧
      (timecoder_get_position tc when).2.2.mon = tc.mon := by
  intro tc when
  have h := get_position_state tc when
  exact ⟨h, by rw [h], by rw [h], by rw [h], by rw [h], by rw [h], by rw [h],
         by rw [h], by rw [h], by rw [h]⟩

/-- C1 (refutation of the full-width mask): the reverse branch of
`process_bitstream` computes its mask by shifting the `int` literal `1`
(`(1 << tc->def->bits) - 1`), not a full-width `bits_t` value; this is only
defined for `bits ≤ 30`, and the catalog's MK2 formats exceed that, so a
reverse-direction decode step on such a format has no defined result. -/
theorem C1_reverse_mask_bug :
    traktor_mk2_a ∈ timecodes ∧ 30 < traktor_mk2_a.bits ∧
    pb_mask_int traktor_mk2_a.bits = none ∧
    process_bitstream { scratch_timecoder with
                        def_ := traktor_mk2_a
                        forwards := false } 0 = none ∧
    (∀ bits : Nat, bits ≤ 30 → pb_mask_int bits = some ((1 <<< bits) - 1)) := by
  refine ⟨by simp [timecodes], by decide, rfl, rfl, ?_⟩
  intro bits h
  unfold pb_mask_int
  rw [if_pos h]

/-- Witness for C1: the narrow-width branch at 20 bits. -/
theorem C1_reverse_mask_bug_witness :
    pb_mask_int 20 = some ((1 <<< 20) - 1) :=
  C1_reverse_mask_bug.2.2.2.2 20 (by decide)

/-- Witness for C7: a raw-input format, both channels crossing upwards on a
positive sample, which flips the direction to `false` and resets the
validity counter. -/
theorem C7_direction_inference_witness :
    ((ps_primary scratch_timecoder scratch_filter_state 100 100).swapped ∨
     (ps_secondary scratch_timecoder scratch_filter_state 100 100).swapped) ∧
    (ps_direction { scratch_timecoder with
        primary := ps_primary scratch_timecoder scratch_filter_state 100 100,
        secondary := ps_secondary scratch_timecoder scratch_filter_state 100 100 }
      (ps_primary scratch_timecoder scratch_filter_state 100 100)
      (ps_secondary scratch_timecoder scratch_filter_state 100 100)).forwards
      = false ∧
    (ps_direction { scratch_timecoder with
        primary := ps_primary scratch_timecoder scratch_filter_state 100 100,
        secondary := ps_secondary scratch_timecoder scratch_filter_state 100 100 }
      (ps_primary scratch_timecoder scratch_filter_state 100 100)
      (ps_secondary scratch_timecoder scratch_filter_state 100 100)).valid_counter
      = 0 :=
  have h := C7_direction_inference scratch_timecoder scratch_filter_state 100 100
    (Or.inl (by decide)) false (by decide)
  ⟨Or.inl (by decide), h.1, h.2.1 (by decide)⟩

/-- Witness for C10: a concrete query with a NULL out-pointer. -/
theorem C10_get_position_pure_witness :
    (timecoder_get_position scratch_timecoder none).2.2 = scratch_timecoder ∧
    (timecoder_get_position scratch_timecoder none).2.2.def_
      = scratch_timecoder.def_ ∧
    (timecoder_get_position scratch_timecoder none).2.2.bitstream
      = scratch_timecoder.bitstream ∧
    (timecoder_get_position scratch_timecoder none).2.2.timecode
      = scratch_timecoder.timecode ∧
    (timecoder_get_position scratch_timecoder none).2.2.valid_counter
      = scratch_timecoder.valid_counter ∧
    (timecoder_get_position scratch_timecoder none).2.2.timecode_ticker
      = scratch_timecoder.timecode_ticker ∧
    (timecoder_get_position scratch_timecoder none).2.2.primary
      = scratch_timecoder.primary ∧
    (timecoder_get_position scratch_timecoder none).2.2.secondary
      = scratch_timecoder.secondary ∧
    (timecoder_get_position scratch_timecoder none).2.2.ref_level
      = scratch_timecoder.ref_level ∧
    (timecoder_get_position scratch_timecoder none).2.2.mon
      = scratch_timecoder.mon :=
  C10_get_position_pure scratch_timecoder none

theorem xor_shiftRight_distrib (a b n : Nat) :
    (a ^^^ b) >>> n = (a >>> n) ^^^ (b >>> n) := by
  apply Nat.eq_of_testBit_eq
  intro i
  simp [Nat.testBit_shiftRight, Nat.testBit_xor]

theorem xor_shiftLeft_distrib (a b n : Nat) :
    (a ^^^ b) <<< n = (a <<< n) ^^^ (b <<< n) := by
  apply Nat.eq_of_testBit_eq
  intro i
  simp [Nat.testBit_shiftLeft, Nat.testBit_xor, Bool.and_xor_distrib_left]

theorem and_shiftRight_distrib (a b n : Nat) :
    (a &&& b) >>> n = (a >>> n) &&& (b >>> n) := by
  apply Nat.eq_of_testBit_eq
  intro i
  simp [Nat.testBit_shiftRight, Nat.testBit_and]

theorem parbit_xor (a b : Nat) : par (a ^^^ b) = par a ^^^ par b := by
  rw [par_xor]
  have ha := par_lt_two a
  have hb := par_lt_two b
  interval_cases h1 : par a <;> interval_cases h2 : par b <;> rfl

theorem fwdL_zero (bits taps : Nat) : fwdL bits taps 0 = 0 := by
  simp [fwdL, par_zero]

theorem nat_xor_left_comm (a b c : Nat) : a ^^^ (b ^^^ c) = b ^^^ (a ^^^ c) := by
  rw [← Nat.xor_assoc, Nat.xor_comm a b, Nat.xor_assoc]

theorem nat_xor_cancel_left (a b : Nat) : a ^^^ (a ^^^ b) = b := by
  rw [← Nat.xor_assoc, Nat.xor_self, Nat.zero_xor]

theorem fwdL_xor (bits taps x y : Nat) :
    fwdL bits taps (x ^^^ y) = fwdL bits taps x ^^^ fwdL bits taps y := by
  unfold fwdL
  rw [xor_shiftRight_distrib, Nat.and_xor_distrib_right, parbit_xor,
      xor_shiftLeft_distrib]
  simp only [Nat.xor_assoc]
  rw [nat_xor_left_comm (y >>> 1)]

theorem fwdL_lt (bits taps : Nat) (hb : 1 ≤ bits) {x : Nat} (hx : x < 2 ^ bits) :
    fwdL bits taps x < 2 ^ bits := by
  unfold fwdL
  apply Nat.xor_lt_two_pow
  · calc x >>> 1 = x / 2 ^ 1 := Nat.shiftRight_eq_div_pow x 1
    _ ≤ x := Nat.div_le_self _ _
    _ < 2 ^ bits := hx
  · have h1 : par (x &&& (taps ||| 1)) < 2 := par_lt_two _
    calc par (x &&& (taps ||| 1)) <<< (bits - 1)
        = par (x &&& (taps ||| 1)) * 2 ^ (bits - 1) := Nat.shiftLeft_eq _ _
      _ ≤ 1 * 2 ^ (bits - 1) := Nat.mul_le_mul_right _ (by omega)
      _ < 2 ^ bits := by
          rw [one_mul]
          exact Nat.pow_lt_pow_right (by norm_num) (by omega)

theorem and_two_pow_sub_one (a s : Nat) : a &&& (2 ^ s - 1) = a % 2 ^ s := by
  apply Nat.eq_of_testBit_eq
  intro i
  simp [Nat.testBit_and, Nat.testBit_mod_two_pow, Nat.testBit_two_pow_sub_one,
        Bool.and_comm]

theorem par_of_lt_two {v : Nat} (h : v < 2) : par v = v := by
  interval_cases v <;> rfl

theorem pfold_spec (s x : Nat) (hx : x < 2 ^ (2 * s)) :
    par (pfold s x) = par x ∧ pfold s x < 2 ^ s := by
  have hone : (1 <<< s) = 2 ^ s := by rw [Nat.shiftLeft_eq, one_mul]
  have hhi : x >>> s < 2 ^ s := by
    rw [Nat.shiftRight_eq_div_pow]
    apply Nat.div_lt_of_lt_mul
    calc x < 2 ^ (2 * s) := hx
      _ = 2 ^ s * 2 ^ s := by rw [← pow_add]; ring_nf
  have hsplit : x = (x % 2 ^ s) ^^^ ((x >>> s) <<< s) := by
    rw [← add_eq_xor_of_and_eq_zero (and_shiftLeft_eq_zero _ (Nat.mod_lt _ (Nat.pos_pow_of_pos s (by norm_num))))]
    rw [Nat.shiftLeft_eq, Nat.shiftRight_eq_div_pow]
    have h1 := Nat.div_add_mod x (2 ^ s)
    rw [Nat.mul_comm]
    omega
  constructor
  · unfold pfold
    rw [hone, and_two_pow_sub_one]
    have hx2 : (x ^^^ x >>> s) % 2 ^ s = (x % 2 ^ s) ^^^ (x >>> s) := by
      rw [← and_two_pow_sub_one, Nat.and_xor_distrib_right, and_two_pow_sub_one,
          and_two_pow_sub_one, Nat.mod_eq_of_lt hhi]
    rw [hx2, parbit_xor]
    conv_rhs => rw [hsplit]
    rw [parbit_xor, par_shiftLeft]
  · unfold pfold
    rw [hone, and_two_pow_sub_one]
    exact Nat.mod_lt _ (Nat.pos_pow_of_pos s (by norm_num))

theorem par128_eq {x : Nat} (hx : x < 2 ^ 128) : par128 x = par x := by
  obtain ⟨p64, b64⟩ := pfold_spec 64 x hx
  obtain ⟨p32, b32⟩ := pfold_spec 32 _ b64
  obtain ⟨p16, b16⟩ := pfold_spec 16 _ b32
  obtain ⟨p8, b8⟩ := pfold_spec 8 _ b16
  obtain ⟨p4, b4⟩ := pfold_spec 4 _ b8
  obtain ⟨p2, b2⟩ := pfold_spec 2 _ b4
  obtain ⟨p1, b1⟩ := pfold_spec 1 _ b2
  unfold par128
  rw [← par_of_lt_two b1, p1, p2, p4, p8, p16, p32, p64]

theorem fwdF_eq (bits taps : Nat) {x : Nat} (hx : x < 2 ^ 128) :
    fwdF bits taps x = fwdL bits taps x := by
  unfold fwdF fwdL
  rw [par128_eq (lt_of_le_of_lt Nat.and_le_left hx)]

theorem evalF_eq (bits taps : Nat) (hb : 1 ≤ bits) (hb128 : bits ≤ 128) :
    ∀ f S x, x < 2 ^ bits → evalF bits taps f S x = evalS bits taps f S x := by
  intro f
  induction f with
  | zero => intro S x _; rfl
  | succ f ih =>
    intro S x hx
    have hx128 : x < 2 ^ 128 :=
      lt_of_lt_of_le hx (Nat.pow_le_pow_right (by norm_num) hb128)
    show (if S = 0 then 0 else _) = (if S = 0 then 0 else _)
    by_cases hS : S = 0
    · simp [hS]
    · rw [if_neg hS, if_neg hS]
      dsimp only
      rw [if_pos (beq_self_eq_true (fwdF bits taps x))]
      rw [fwdF_eq bits taps hx128, ih _ _ (fwdL_lt bits taps hb hx)]

theorem evalS_S_zero (bits taps : Nat) (f : Nat) (x : Nat) :
    evalS bits taps f 0 x = 0 := by
  cases f <;> simp [evalS]

theorem evalS_unfold (bits taps f S x : Nat) :
    evalS bits taps (f+1) S x =
      (if S &&& 1 = 1 then x else 0) ^^^
        evalS bits taps f (S >>> 8) (fwdL bits taps x) := by
  by_cases hS : S = 0
  · subst hS
    simp [evalS, evalS_S_zero]
  · simp [evalS, hS]

theorem evalS_x_zero (bits taps : Nat) : ∀ f S, evalS bits taps f S 0 = 0 := by
  intro f
  induction f with
  | zero => intro S; rfl
  | succ f ih =>
    intro S
    rw [evalS_unfold, fwdL_zero, ih]
    simp

theorem evalS_one (bits taps f x : Nat) : evalS bits taps (f+1) 1 x = x := by
  rw [evalS_unfold]
  have h18 : (1 : Nat) >>> 8 = 0 := rfl
  rw [h18, evalS_S_zero]
  simp

theorem evalS_comm (bits taps : Nat) : ∀ f S x,
    evalS bits taps f S (fwdL bits taps x) = fwdL bits taps (evalS bits taps f S x) := by
  intro f
  induction f with
  | zero => intro S x; simp [evalS, fwdL_zero]
  | succ f ih =>
    intro S x
    rw [evalS_unfold, evalS_unfold, ih, fwdL_xor]
    congr 1
    split <;> simp [fwdL_zero]

theorem evalS_comm_iter (bits taps : Nat) (f S : Nat) : ∀ (k : Nat) (x : Nat),
    evalS bits taps f S ((fwdL bits taps)^[k] x)
      = (fwdL bits taps)^[k] (evalS bits taps f S x) := by
  intro k
  induction k with
  | zero => intro x; rfl
  | succ k ih =>
    intro x
    rw [Function.iterate_succ_apply, Function.iterate_succ_apply, ← evalS_comm, ih]

theorem evalS_fuel (bits taps : Nat) : ∀ f1 f2 S x, S < 256 ^ f1 → S < 256 ^ f2 →
    evalS bits taps f1 S x = evalS bits taps f2 S x := by
  intro f1
  induction f1 with
  | zero =>
    intro f2 S x h1 _
    have hS : S = 0 := by simpa using h1
    subst hS
    rw [evalS_S_zero, evalS_S_zero]
  | succ f1 ih =>
    intro f2 S x h1 h2
    cases f2 with
    | zero =>
      have hS : S = 0 := by simpa using h2
      subst hS
      rw [evalS_S_zero, evalS_S_zero]
    | succ f2 =>
      rw [evalS_unfold, evalS_unfold]
      congr 1
      have hdiv : ∀ g : Nat, S < 256 ^ (g + 1) → S >>> 8 < 256 ^ g := by
        intro g hg
        rw [Nat.shiftRight_eq_div_pow]
        have h256 : (2:Nat) ^ 8 = 256 := by norm_num
        rw [h256]
        exact Nat.div_lt_of_lt_mul (by rw [← pow_succ']; exact hg)
      exact ih f2 _ _ (hdiv f1 h1) (hdiv f2 h2)

theorem evalS_xor (bits taps : Nat) : ∀ f a b x,
    evalS bits taps f (a ^^^ b) x = evalS bits taps f a x ^^^ evalS bits taps f b x := by
  intro f
  induction f with
  | zero => intro a b x; simp [evalS]
  | succ f ih =>
    intro a b x
    rw [evalS_unfold, evalS_unfold, evalS_unfold, xor_shiftRight_distrib, ih]
    have hx : (a ^^^ b) &&& 1 = (a &&& 1) ^^^ (b &&& 1) := Nat.and_xor_distrib_right
    have ha : a &&& 1 = 0 ∨ a &&& 1 = 1 := by rw [Nat.and_one_is_mod]; omega
    have hb : b &&& 1 = 0 ∨ b &&& 1 = 1 := by rw [Nat.and_one_is_mod]; omega
    rcases ha with ha | ha <;> rcases hb with hb | hb <;>
      simp [hx, ha, hb, Nat.xor_comm, Nat.xor_assoc, nat_xor_left_comm,
            nat_xor_cancel_left]

theorem slotsLE_zero (m : Nat) : slotsLE m 0 := by
  intro k; simp

theorem slotsLE_mono {m n w : Nat} (h : m ≤ n) (hw : slotsLE m w) : slotsLE n w :=
  fun k => le_trans (hw k) h

theorem slotsLE_div256 {m w : Nat} (h : slotsLE m w) : slotsLE m (w / 256) := by
  intro k
  rw [Nat.div_div_eq_div_mul, ← pow_succ']
  exact h (k + 1)

theorem slotsLE_head {m w : Nat} (h : slotsLE m w) : w % 256 ≤ m := by
  have := h 0
  simpa using this

theorem nocarry {m n a b : Nat} (ha : slotsLE m a) (hb : slotsLE n b)
    (hmn : m + n ≤ 255) : ∀ k, (a + b) / 256 ^ k = a / 256 ^ k + b / 256 ^ k := by
  intro k
  induction k with
  | zero => simp
  | succ k ih =>
    have hsplit : ∀ c : Nat, c / 256 ^ (k + 1) = c / 256 ^ k / 256 := by
      intro c
      rw [Nat.div_div_eq_div_mul, ← pow_succ]
    rw [hsplit, hsplit, hsplit, ih]
    have hA := ha k
    have hB := hb k
    omega

theorem slotsLE_add {m n a b : Nat} (ha : slotsLE m a) (hb : slotsLE n b)
    (hmn : m + n ≤ 255) : slotsLE (m + n) (a + b) := by
  intro k
  rw [nocarry ha hb hmn k]
  have hA := ha k
  have hB := hb k
  omega

theorem slotsLE_mul256 {m w : Nat} (h : slotsLE m w) : slotsLE m (256 * w) := by
  intro k
  cases k with
  | zero => simp [Nat.mul_mod_right]
  | succ k =>
    rw [pow_succ', Nat.mul_div_mul_left _ _ (by norm_num : (0:Nat) < 256)]
    exact h k

theorem slotsLE_mul {u v : Nat} (hu : slotsLE 1 u) (hv : slotsLE 1 v) :
    ∀ fu, fu ≤ 255 → u < 256 ^ fu → slotsLE fu (u * v) := by
  intro fu
  induction fu generalizing u with
  | zero =>
    intro _ hu0
    have : u = 0 := by simpa using hu0
    subst this
    simp [slotsLE_zero]
  | succ fu ih =>
    intro hle hub
    have hu' : slotsLE 1 (u / 256) := slotsLE_div256 hu
    have hu0 : u % 256 ≤ 1 := slotsLE_head hu
    have hdecomp : u * v = (u % 256) * v + 256 * ((u / 256) * v) := by
      conv_lhs => rw [← Nat.div_add_mod u 256]
      ring
    rw [hdecomp]
    have htail : slotsLE fu (256 * (u / 256 * v)) :=
      slotsLE_mul256 (ih hu' (by omega)
        (Nat.div_lt_of_lt_mul (by rw [← pow_succ']; exact hub)))
    have hhead : slotsLE 1 (u % 256 * v) := by
      rcases Nat.le_one_iff_eq_zero_or_eq_one.mp hu0 with h | h <;> rw [h]
      · simpa using slotsLE_zero 1
      · simpa using hv
    have h2 := @slotsLE_add 1 fu _ _ hhead htail (by omega)
    rwa [Nat.add_comm 1 fu] at h2

theorem shift8_div (a : Nat) : a >>> 8 = a / 256 := by
  rw [Nat.shiftRight_eq_div_pow]

theorem div256pow_eq_shift (w k : Nat) : w / 256 ^ k = w >>> (8 * k) := by
  rw [Nat.shiftRight_eq_div_pow, pow_mul]
  norm_num

theorem mod256_eq_and (w : Nat) : w % 256 = w &&& 255 := by
  have h := and_two_pow_sub_one w 8
  norm_num at h
  exact h.symm

theorem M01_eq_add (f : Nat) : M01 (f+1) = 1 + 256 * M01 f := by
  show 1 ||| (M01 f <<< 8) = _
  rw [Nat.shiftLeft_eq]
  norm_num
  rw [or_eq_add_of_and_eq_zero]
  · ring
  · rw [Nat.and_comm, Nat.and_one_is_mod]
    omega

theorem M01_shift (f : Nat) : M01 (f+1) >>> 8 = M01 f := by
  rw [M01_eq_add, shift8_div]
  omega

theorem M01_slots (f : Nat) : slotsLE 1 (M01 f) := by
  induction f with
  | zero => exact slotsLE_zero 1
  | succ f ih =>
    intro k
    rw [M01_eq_add]
    cases k with
    | zero => simp
    | succ k =>
      have hsplit : (1 + 256 * M01 f) / 256 ^ (k+1)
          = (1 + 256 * M01 f) / 256 / 256 ^ k := by
        rw [Nat.div_div_eq_div_mul, ← pow_succ']
      rw [hsplit]
      have h2 : (1 + 256 * M01 f) / 256 = M01 f := by omega
      rw [h2]
      exact ih k

theorem and_and_255 (x y : Nat) : x &&& y &&& 255 = (x &&& 255) &&& (y &&& 255) := by
  apply Nat.eq_of_testBit_eq
  intro i
  simp only [Nat.testBit_and]
  cases x.testBit i <;> cases y.testBit i <;> cases Nat.testBit 255 i <;> rfl

theorem slotsLE_and_M01 (w F : Nat) : slotsLE 1 (w &&& M01 F) := by
  intro k
  rw [div256pow_eq_shift, mod256_eq_and, and_shiftRight_distrib, and_and_255]
  calc (w >>> (8*k) &&& 255) &&& (M01 F >>> (8*k) &&& 255)
      ≤ M01 F >>> (8*k) &&& 255 := Nat.and_le_right
    _ = M01 F / 256 ^ k % 256 := by rw [mod256_eq_and, div256pow_eq_shift]
    _ ≤ 1 := M01_slots F k

theorem slotsLE_xor {a b : Nat} (ha : slotsLE 1 a) (hb : slotsLE 1 b) :
    slotsLE 1 (a ^^^ b) := by
  intro k
  have h1 := ha k
  have h2 := hb k
  rw [div256pow_eq_shift, mod256_eq_and] at h1 h2 ⊢
  rw [xor_shiftRight_distrib, Nat.and_xor_distrib_right]
  interval_cases h3 : (a >>> (8*k)) &&& 255 <;>
    interval_cases h4 : (b >>> (8*k)) &&& 255 <;> decide

theorem evalS_add (bits taps : Nat) {m n : Nat} (hmn : m + n ≤ 255) :
    ∀ f a b x, slotsLE m a → slotsLE n b →
    evalS bits taps f (a + b) x = evalS bits taps f a x ^^^ evalS bits taps f b x := by
  intro f
  induction f with
  | zero => intro a b x _ _; simp [evalS]
  | succ f ih =>
    intro a b x ha hb
    rw [evalS_unfold, evalS_unfold, evalS_unfold]
    have hsplit : (a + b) >>> 8 = a >>> 8 + b >>> 8 := by
      rw [shift8_div, shift8_div, shift8_div]
      have := nocarry ha hb hmn 1
      simpa using this
    have ha8 : slotsLE m (a >>> 8) := by rw [shift8_div]; exact slotsLE_div256 ha
    have hb8 : slotsLE n (b >>> 8) := by rw [shift8_div]; exact slotsLE_div256 hb
    rw [hsplit, ih _ _ _ ha8 hb8]
    have hAB : (a + b) &&& 1 = ((a &&& 1) + (b &&& 1)) % 2 := by
      rw [Nat.and_one_is_mod, Nat.and_one_is_mod, Nat.and_one_is_mod, Nat.add_mod]
    have hpa : a &&& 1 = 0 ∨ a &&& 1 = 1 := by rw [Nat.and_one_is_mod]; omega
    have hpb : b &&& 1 = 0 ∨ b &&& 1 = 1 := by rw [Nat.and_one_is_mod]; omega
    rcases hpa with hA | hA <;> rcases hpb with hB | hB <;>
      simp [hAB, hA, hB, Nat.xor_comm, Nat.xor_assoc, nat_xor_left_comm,
            nat_xor_cancel_left]

theorem evalS_shift8 (bits taps f w x : Nat) :
    evalS bits taps (f+1) (w <<< 8) x = evalS bits taps f w (fwdL bits taps x) := by
  rw [evalS_unfold]
  have h1 : (w <<< 8) &&& 1 = 0 := by
    rw [Nat.shiftLeft_eq, Nat.and_one_is_mod]
    norm_num
    omega
  have h2 : (w <<< 8) >>> 8 = w := by
    rw [Nat.shiftLeft_eq, shift8_div]
    norm_num
  rw [h1, h2]
  simp

theorem evalS_shift8k (bits taps : Nat) : ∀ k f w x,
    evalS bits taps (f + k) (w <<< (8 * k)) x
      = evalS bits taps f w ((fwdL bits taps)^[k] x) := by
  intro k
  induction k with
  | zero => intro f w x; simp
  | succ k ih =>
    intro f w x
    have hsh : w <<< (8 * (k+1)) = (w <<< 8) <<< (8 * k) := by
      rw [← Nat.shiftLeft_add]
      congr 1
      ring
    have hf : f + (k + 1) = (f + 1) + k := by omega
    rw [hsh, hf, ih (f+1) (w <<< 8) x, evalS_shift8,
        Function.iterate_succ_apply']

theorem evalS_and_M01 (bits taps : Nat) : ∀ f K w x, w < 256 ^ K → K ≤ f →
    evalS bits taps f (w &&& M01 K) x = evalS bits taps f w x := by
  intro f
  induction f with
  | zero => intro K w x _ _; rfl
  | succ f ih =>
    intro K w x hw hK
    cases K with
    | zero =>
      have : w = 0 := by simpa using hw
      subst this
      rfl
    | succ K =>
      rw [evalS_unfold, evalS_unfold]
      have hhead : (w &&& M01 (K+1)) &&& 1 = w &&& 1 := by
        rw [Nat.and_assoc]
        congr 1
        rw [M01_eq_add, Nat.and_one_is_mod]
        omega
      have htail : (w &&& M01 (K+1)) >>> 8 = (w >>> 8) &&& M01 K := by
        rw [and_shiftRight_distrib, M01_shift]
      rw [hhead, htail, ih K _ _ ?_ (by omega)]
      rw [shift8_div]
      exact Nat.div_lt_of_lt_mul (by rw [← pow_succ']; exact hw)

theorem mul_width {a b n m : Nat} (ha : a < 256 ^ n) (hb : b < 256 ^ m) :
    a * b < 256 ^ (n + m) := by
  rw [pow_add]
  have h := Nat.mul_le_mul (show a + 1 ≤ 256 ^ n from ha)
    (show b + 1 ≤ 256 ^ m from hb)
  nlinarith

theorem evalS_mul (bits taps : Nat) : ∀ fu, fu ≤ 254 → ∀ fv F u v x,
    fu + fv + 1 ≤ F → slotsLE 1 u → u < 256 ^ fu → slotsLE 1 v → v < 256 ^ fv →
    evalS bits taps F (u * v) x
      = evalS bits taps F u (evalS bits taps F v x) := by
  intro fu
  induction fu with
  | zero =>
    intro _ fv F u v x _ _ hu0 _ _
    have : u = 0 := by simpa using hu0
    subst this
    rw [Nat.zero_mul, evalS_S_zero, evalS_S_zero]
  | succ fu ih =>
    intro hle fv F u v x hF hu hub hv hvb
    have hu' : slotsLE 1 (u / 256) := slotsLE_div256 hu
    have hu0 : u % 256 ≤ 1 := slotsLE_head hu
    have hub' : u / 256 < 256 ^ fu :=
      Nat.div_lt_of_lt_mul (by rw [← pow_succ']; exact hub)
    have hdecomp : u * v = (u % 256) * v + 256 * ((u / 256) * v) := by
      conv_lhs => rw [← Nat.div_add_mod u 256]
      ring
    obtain ⟨F', hF'⟩ : ∃ F', F = F' + 1 := ⟨F - 1, by omega⟩
    subst hF'
    have hslots_head : slotsLE 1 (u % 256 * v) := by
      rcases Nat.le_one_iff_eq_zero_or_eq_one.mp hu0 with h | h <;> rw [h]
      · simpa using slotsLE_zero 1
      · simpa using hv
    have hslots_tail : slotsLE fu (u / 256 * v) :=
      slotsLE_mul hu' hv fu (by omega) hub'
    have hslots_tail' : slotsLE fu (256 * (u / 256 * v)) :=
      slotsLE_mul256 hslots_tail
    rw [hdecomp, evalS_add bits taps (by omega : 1 + fu ≤ 255) _ _ _ _
          hslots_head hslots_tail']
    -- the 256·(u'v) part steps by one slot
    have hsh : 256 * (u / 256 * v) = (u / 256 * v) <<< 8 := by
      rw [Nat.shiftLeft_eq]
      ring
    have htailW : u / 256 * v < 256 ^ (fu + fv) := mul_width hub' hvb
    have hub'' : u / 256 < 256 ^ F' :=
      lt_of_lt_of_le hub' (Nat.pow_le_pow_right (by norm_num) (by omega))
    have htail2 : evalS bits taps (F' + 1) (256 * (u / 256 * v)) x
        = evalS bits taps F' (u / 256)
            (fwdL bits taps (evalS bits taps (F' + 1) v x)) := by
      rw [hsh]
      have h8 : (u / 256 * v) <<< 8 = (u / 256 * v) <<< (8 * 1) := by norm_num
      rw [h8]
      rw [evalS_shift8k bits taps 1 F' _ x]
      rw [Function.iterate_one]
      rw [evalS_fuel bits taps F' (F'+1) _ _
            (lt_of_lt_of_le htailW (Nat.pow_le_pow_right (by norm_num) (by omega)))
            (lt_of_lt_of_le htailW (Nat.pow_le_pow_right (by norm_num) (by omega)))]
      rw [ih (by omega) fv (F'+1) _ v _ (by omega) hu' hub' hv hvb]
      rw [evalS_comm]
      rw [evalS_fuel bits taps (F'+1) F' (u / 256) _
            (lt_of_lt_of_le hub' (Nat.pow_le_pow_right (by norm_num) (by omega)))
            hub'']
    rw [htail2]
    conv_rhs => rw [evalS_unfold]
    rw [shift8_div]
    have hu1 : u &&& 1 = u % 256 := by rw [Nat.and_one_is_mod]; omega
    rw [hu1]
    congr 1
    rcases Nat.le_one_iff_eq_zero_or_eq_one.mp hu0 with h | h <;> rw [h]
    · rw [Nat.zero_mul, evalS_S_zero]
      simp
    · rw [Nat.one_mul]
      simp

theorem pow256_pow2 (n : Nat) : 256 ^ n = 2 ^ (8 * n) := by
  rw [pow_mul]
  norm_num

theorem slotsLE_shiftLeft8k {m w : Nat} (h : slotsLE m w) (k : Nat) :
    slotsLE m (w <<< (8 * k)) := by
  induction k with
  | zero => simpa using h
  | succ k ih =>
    have hsh : w <<< (8 * (k+1)) = 256 * (w <<< (8 * k)) := by
      rw [Nat.shiftLeft_eq, Nat.shiftLeft_eq, ← pow256_pow2, ← pow256_pow2,
          pow_succ]
      ring
    rw [hsh]
    exact slotsLE_mul256 ih

theorem shiftLeft_shiftRight_cancel (w n p : Nat) :
    (w <<< n) >>> (n + p) = w >>> p := by
  rw [Nat.shiftLeft_eq, Nat.shiftRight_eq_div_pow, Nat.shiftRight_eq_div_pow,
      pow_add, ← Nat.div_div_eq_div_mul, Nat.mul_div_cancel _ (Nat.pos_pow_of_pos n (by norm_num))]

theorem shiftRight_zero_lt {w n : Nat} (h : w >>> n = 0) : w < 2 ^ n := by
  rw [Nat.shiftRight_eq_div_pow] at h
  exact (Nat.div_eq_zero_iff (Nat.pos_pow_of_pos n (by norm_num))).mp h

theorem top_slot_le_one {a X : Nat} (ha : slotsLE 1 a) (hw : a < 256 ^ (X+1)) :
    a >>> (8 * X) ≤ 1 := by
  have h1 := ha X
  rw [div256pow_eq_shift] at h1
  have h2 : a >>> (8 * X) < 256 := by
    rw [Nat.shiftRight_eq_div_pow, ← pow256_pow2]
    exact Nat.div_lt_of_lt_mul (by rw [← pow_succ]; exact hw)
  rwa [Nat.mod_eq_of_lt h2] at h1

theorem sredTop_spec (bits taps dg gS F seed : Nat)
    (hgs : slotsLE 1 gS) (hgw : gS < 256 ^ (dg+1)) (hgtop : gS >>> (8*dg) = 1)
    (hFk : 2*dg + 6 ≤ F)
    (hann : ∀ j, evalS bits taps F gS ((fwdL bits taps)^[j] seed) = 0) :
    ∀ k, k ≤ dg + 4 → ∀ a, slotsLE 1 a → a < 256 ^ (dg + k) →
    slotsLE 1 (sredTop gS dg k a) ∧ sredTop gS dg k a < 256 ^ dg ∧
    ∀ j, evalS bits taps F (sredTop gS dg k a) ((fwdL bits taps)^[j] seed)
        = evalS bits taps F a ((fwdL bits taps)^[j] seed) := by
  intro k
  induction k with
  | zero =>
    intro _ a ha haw
    exact ⟨ha, by simpa using haw, fun j => rfl⟩
  | succ k ih =>
    intro hk a ha haw
    have hstep : sredTop gS dg (k+1) a
        = sredTop gS dg k
            (if (a >>> (8*(dg+k))) &&& 1 = 1 then a ^^^ (gS <<< (8*k)) else a) := by
      show (if _ == _ then _ else 0) = _
      rw [if_pos (beq_self_eq_true _)]
    rw [hstep]
    have htop : a >>> (8*(dg+k)) ≤ 1 := top_slot_le_one ha haw
    by_cases hbit : (a >>> (8*(dg+k))) &&& 1 = 1
    · rw [if_pos hbit]
      have hval : a >>> (8*(dg+k)) = 1 := by
        rw [Nat.and_one_is_mod] at hbit
        generalize a >>> (8*(dg+k)) = v at htop hbit ⊢
        omega
      -- slots of the shifted generator
      have hgs' : slotsLE 1 (gS <<< (8*k)) := slotsLE_shiftLeft8k hgs k
      have ha' : slotsLE 1 (a ^^^ gS <<< (8*k)) := slotsLE_xor ha hgs'
      -- width: the top slot cancels
      have hmtop : (gS <<< (8*k)) >>> (8*(dg+k)) = 1 := by
        have h1 : 8*(dg+k) = 8*k + 8*dg := by ring
        rw [h1, shiftLeft_shiftRight_cancel, hgtop]
      have hxtop : (a ^^^ gS <<< (8*k)) >>> (8*(dg+k)) = 0 := by
        rw [xor_shiftRight_distrib, hval, hmtop]
        rfl
      have haw' : a ^^^ gS <<< (8*k) < 256 ^ (dg + k) := by
        rw [pow256_pow2]
        exact shiftRight_zero_lt hxtop
      obtain ⟨h1, h2, h3⟩ := ih (by omega) _ ha' haw'
      refine ⟨h1, h2, fun j => ?_⟩
      rw [h3 j, evalS_xor]
      have hm : evalS bits taps F (gS <<< (8*k)) ((fwdL bits taps)^[j] seed) = 0 := by
        have hF : F = (F - k) + k := by omega
        rw [hF, evalS_shift8k bits taps k (F - k) gS]
        rw [evalS_fuel bits taps (F - k) F gS _
              (lt_of_lt_of_le hgw (Nat.pow_le_pow_right (by norm_num) (by omega)))
              (lt_of_lt_of_le hgw (Nat.pow_le_pow_right (by norm_num) (by omega)))]
        rw [← Function.iterate_add_apply]
        exact hann (k + j)
      rw [hm, Nat.xor_zero]
    · rw [if_neg hbit]
      have hval : a >>> (8*(dg+k)) = 0 := by
        rw [Nat.and_one_is_mod] at hbit
        generalize a >>> (8*(dg+k)) = v at htop hbit ⊢
        omega
      have haw' : a < 256 ^ (dg + k) := by
        rw [pow256_pow2]
        exact shiftRight_zero_lt hval
      exact ih (by omega) _ ha haw'

theorem slotsLE_shiftRight8k {m w : Nat} (h : slotsLE m w) (k : Nat) :
    slotsLE m (w >>> (8 * k)) := by
  intro j
  have h1 : w >>> (8*k) = w / 256 ^ k := (div256pow_eq_shift w k).symm
  rw [h1, Nat.div_div_eq_div_mul, ← pow_add]
  exact h (k + j)

theorem xor_lt_256pow {a b n : Nat} (ha : a < 256 ^ n) (hb : b < 256 ^ n) :
    a ^^^ b < 256 ^ n := by
  rw [pow256_pow2] at ha hb ⊢
  exact Nat.xor_lt_two_pow ha hb

theorem brtStep_spec (bits taps dg gS ginvS F seed : Nat)
    (hgs : slotsLE 1 gS) (hgw : gS < 256 ^ (dg+1)) (hgtop : gS >>> (8*dg) = 1)
    (his : slotsLE 1 ginvS) (hiw : ginvS < 256 ^ (dg+1))
    (hdg : 1 ≤ dg) (hdg2 : dg ≤ 120) (hF : 2*dg + 6 ≤ F)
    (hann : ∀ j, evalS bits taps F gS ((fwdL bits taps)^[j] seed) = 0)
    (s : Nat) (hs : slotsLE 1 s) (hsw : s < 256 ^ (2*dg)) :
    slotsLE 1 (brtStep gS ginvS (M01 (2*dg+4)) (256 ^ dg) dg s) ∧
    brtStep gS ginvS (M01 (2*dg+4)) (256 ^ dg) dg s < 256 ^ dg ∧
    ∀ j, evalS bits taps F (brtStep gS ginvS (M01 (2*dg+4)) (256 ^ dg) dg s)
          ((fwdL bits taps)^[j] seed)
        = evalS bits taps F s ((fwdL bits taps)^[j] seed) := by
  have hstep : brtStep gS ginvS (M01 (2*dg+4)) (256 ^ dg) dg s
      = (if s ^^^ ((((((s >>> (8*dg)) * ginvS) &&& M01 (2*dg+4)) >>> (8*dg)) * gS) &&& M01 (2*dg+4)) < 256 ^ dg
         then s ^^^ ((((((s >>> (8*dg)) * ginvS) &&& M01 (2*dg+4)) >>> (8*dg)) * gS) &&& M01 (2*dg+4))
         else sredTop gS dg (dg+4)
           (s ^^^ ((((((s >>> (8*dg)) * ginvS) &&& M01 (2*dg+4)) >>> (8*dg)) * gS) &&& M01 (2*dg+4)))) := by
    show (if _ == _ then _ else 0) = _
    rw [if_pos (beq_self_eq_true _)]
  set q := ((((s >>> (8*dg)) * ginvS) &&& M01 (2*dg+4)) >>> (8*dg)) with hq
  set t := (q * gS) &&& M01 (2*dg+4) with ht
  set r := s ^^^ t with hr
  -- widths and cleanliness
  have hq_slots : slotsLE 1 q := by
    rw [hq]
    exact slotsLE_shiftRight8k (slotsLE_and_M01 _ _) dg
  have hsdg : s >>> (8*dg) < 256 ^ dg := by
    rw [Nat.shiftRight_eq_div_pow, ← pow256_pow2]
    apply Nat.div_lt_of_lt_mul
    rw [← pow_add]
    have h2 : dg + dg = 2 * dg := by ring
    rw [h2]
    exact hsw
  have hq_w : q < 256 ^ (dg+1) := by
    have h1 := mul_width hsdg hiw
    have heq : dg + (dg + 1) = 2*dg + 1 := by ring
    rw [heq] at h1
    have h2 : (s >>> (8*dg)) * ginvS &&& M01 (2*dg+4) < 256 ^ (2*dg+1) :=
      lt_of_le_of_lt Nat.and_le_left h1
    rw [hq, Nat.shiftRight_eq_div_pow, ← pow256_pow2]
    apply Nat.div_lt_of_lt_mul
    have h3 : 256 ^ (2*dg+1) = 256 ^ dg * 256 ^ (dg+1) := by
      rw [← pow_add]
      congr 1
      ring
    rw [← h3]
    exact h2
  have ht_clean : slotsLE 1 t := slotsLE_and_M01 _ _
  have ht_w : t < 256 ^ (2*dg+4) :=
    lt_of_le_of_lt Nat.and_le_left
      (lt_of_lt_of_le (mul_width hq_w hgw)
        (Nat.pow_le_pow_right (by norm_num) (by omega)))
  have hr_clean : slotsLE 1 r := slotsLE_xor hs ht_clean
  have hr_w : r < 256 ^ (2*dg+4) :=
    xor_lt_256pow
      (lt_of_lt_of_le hsw (Nat.pow_le_pow_right (by norm_num) (by omega))) ht_w
  have hr_sem : ∀ j, evalS bits taps F r ((fwdL bits taps)^[j] seed)
      = evalS bits taps F s ((fwdL bits taps)^[j] seed) := by
    intro j
    rw [hr, evalS_xor]
    have htz : evalS bits taps F t ((fwdL bits taps)^[j] seed) = 0 := by
      rw [ht, evalS_and_M01 bits taps F (2*dg+4) _ _
            (lt_of_lt_of_le (mul_width hq_w hgw)
              (Nat.pow_le_pow_right (by norm_num) (by omega))) (by omega)]
      rw [evalS_mul bits taps (dg+1) (by omega) (dg+1) F _ _ _ (by omega)
            hq_slots hq_w hgs hgw]
      rw [hann j, evalS_x_zero]
    rw [htz, Nat.xor_zero]
  rw [hstep]
  by_cases hcase : r < 256 ^ dg
  · rw [if_pos hcase]
    exact ⟨hr_clean, hcase, hr_sem⟩
  · rw [if_neg hcase]
    have h2 : 2*dg+4 = dg + (dg + 4) := by ring
    obtain ⟨c1, c2, c3⟩ := sredTop_spec bits taps dg gS F seed hgs hgw hgtop hF
      hann (dg+4) (by omega) r hr_clean (by rw [← h2]; exact hr_w)
    exact ⟨c1, c2, fun j => by rw [c3 j, hr_sem j]⟩

theorem szmulS_spec (bits taps dg gS F seed : Nat)
    (hgs : slotsLE 1 gS) (hgtop : gS >>> (8*dg) = 1)
    (hdg : 1 ≤ dg) (hF : 2*dg + 6 ≤ F)
    (hann : ∀ j, evalS bits taps F gS ((fwdL bits taps)^[j] seed) = 0)
    (w : Nat) (hw : slotsLE 1 w) (hww : w < 256 ^ dg) :
    slotsLE 1 (szmulS gS dg w) ∧ szmulS gS dg w < 256 ^ dg ∧
    ∀ j, evalS bits taps F (szmulS gS dg w) ((fwdL bits taps)^[j] seed)
        = evalS bits taps F w ((fwdL bits taps)^[j+1] seed) := by
  have hstep : szmulS gS dg w
      = (if ((w <<< 8) >>> (8*dg)) &&& 1 = 1 then (w <<< 8) ^^^ gS else w <<< 8) := by
    show (if _ == _ then _ else 0) = _
    rw [if_pos (beq_self_eq_true _)]
  have hw1 : w <<< 8 = w <<< (8 * 1) := by norm_num
  have hw1_slots : slotsLE 1 (w <<< 8) := by
    rw [hw1]
    exact slotsLE_shiftLeft8k hw 1
  have hw1_w : w <<< 8 < 256 ^ (dg + 1) := by
    rw [Nat.shiftLeft_eq]
    norm_num
    calc w * 256 < 256 ^ dg * 256 := by omega
      _ = 256 ^ (dg+1) := by rw [pow_succ]
  have htop : (w <<< 8) >>> (8*dg) ≤ 1 := top_slot_le_one hw1_slots hw1_w
  have hsem1 : ∀ j, evalS bits taps F (w <<< 8) ((fwdL bits taps)^[j] seed)
      = evalS bits taps F w ((fwdL bits taps)^[j+1] seed) := by
    intro j
    have hFsplit : F = (F - 1) + 1 := by omega
    rw [hw1, hFsplit, evalS_shift8k bits taps 1 (F-1) w, Function.iterate_one]
    rw [evalS_fuel bits taps (F-1) ((F-1)+1) w _
          (lt_of_lt_of_le hww (Nat.pow_le_pow_right (by norm_num) (by omega)))
          (lt_of_lt_of_le hww (Nat.pow_le_pow_right (by norm_num) (by omega)))]
    congr 1
    exact (Function.iterate_succ_apply' (fwdL bits taps) j seed).symm
  rw [hstep]
  by_cases hbit : ((w <<< 8) >>> (8*dg)) &&& 1 = 1
  · rw [if_pos hbit]
    have hval : (w <<< 8) >>> (8*dg) = 1 := by
      rw [Nat.and_one_is_mod] at hbit
      generalize (w <<< 8) >>> (8*dg) = v at htop hbit ⊢
      omega
    refine ⟨slotsLE_xor hw1_slots hgs, ?_, ?_⟩
    · have hxtop : ((w <<< 8) ^^^ gS) >>> (8*dg) = 0 := by
        rw [xor_shiftRight_distrib, hval, hgtop]
        rfl
      rw [pow256_pow2]
      exact shiftRight_zero_lt hxtop
    · intro j
      rw [evalS_xor, hann j, Nat.xor_zero, hsem1 j]
  · rw [if_neg hbit]
    have hval : (w <<< 8) >>> (8*dg) = 0 := by
      rw [Nat.and_one_is_mod] at hbit
      generalize (w <<< 8) >>> (8*dg) = v at htop hbit ⊢
      omega
    refine ⟨hw1_slots, ?_, hsem1⟩
    rw [pow256_pow2]
    exact shiftRight_zero_lt hval

theorem slotsLE_one_one : slotsLE 1 1 := by
  intro k
  cases k with
  | zero => simp
  | succ k =>
    have h1 : (1:Nat) / 256 ^ (k+1) = 0 := by
      apply Nat.div_eq_of_lt
      calc (1:Nat) < 256 := by norm_num
        _ ≤ 256 ^ (k+1) := Nat.le_self_pow (by omega) 256
    rw [h1]
    simp

theorem spowS_spec (bits taps dg gS ginvS F seed : Nat)
    (hgs : slotsLE 1 gS) (hgw : gS < 256 ^ (dg+1)) (hgtop : gS >>> (8*dg) = 1)
    (his : slotsLE 1 ginvS) (hiw : ginvS < 256 ^ (dg+1))
    (hdg : 1 ≤ dg) (hdg2 : dg ≤ 120) (hF : 2*dg + 6 ≤ F)
    (hann : ∀ j, evalS bits taps F gS ((fwdL bits taps)^[j] seed) = 0) :
    ∀ f e, e < 2 ^ f →
      slotsLE 1 (spowS gS ginvS (M01 (2*dg+4)) (256 ^ dg) dg f e) ∧
      spowS gS ginvS (M01 (2*dg+4)) (256 ^ dg) dg f e < 256 ^ dg ∧
      ∀ j, evalS bits taps F (spowS gS ginvS (M01 (2*dg+4)) (256 ^ dg) dg f e)
            ((fwdL bits taps)^[j] seed)
          = (fwdL bits taps)^[e + j] seed := by
  have hone : slotsLE 1 1 ∧ (1:Nat) < 256 ^ dg ∧
      ∀ j, evalS bits taps F 1 ((fwdL bits taps)^[j] seed)
          = (fwdL bits taps)^[0 + j] seed := by
    refine ⟨slotsLE_one_one, Nat.one_lt_pow (by omega) (by norm_num), fun j => ?_⟩
    obtain ⟨F', hF'⟩ : ∃ F', F = F' + 1 := ⟨F - 1, by omega⟩
    rw [hF', evalS_one, Nat.zero_add]
  intro f
  induction f with
  | zero =>
    intro e he
    have he0 : e = 0 := by omega
    subst he0
    exact hone
  | succ f ih =>
    intro e he
    by_cases he0 : e = 0
    · subst he0
      show slotsLE 1 (if (0:Nat) = 0 then 1 else _) ∧ _
      rw [if_pos rfl]
      exact hone
    · obtain ⟨ih1, ih2, ih3⟩ := ih (e >>> 1)
        (by rw [Nat.shiftRight_one]; omega)
      set H := spowS gS ginvS (M01 (2*dg+4)) (256 ^ dg) dg f (e >>> 1) with hH
      have hstep : spowS gS ginvS (M01 (2*dg+4)) (256 ^ dg) dg (f+1) e
          = (if e &&& 1 = 1
             then szmulS gS dg (brtStep gS ginvS (M01 (2*dg+4)) (256 ^ dg) dg
                    (smulM (M01 (2*dg+4)) H H))
             else brtStep gS ginvS (M01 (2*dg+4)) (256 ^ dg) dg
                    (smulM (M01 (2*dg+4)) H H)) := by
        show (if e = 0 then 1 else _) = _
        rw [if_neg he0]
        dsimp only
        rw [if_pos (beq_self_eq_true _), if_pos (beq_self_eq_true _)]
      -- the squaring step
      have hs_clean : slotsLE 1 (smulM (M01 (2*dg+4)) H H) := slotsLE_and_M01 _ _
      have hHH : H * H < 256 ^ (2 * dg) := by
        have h1 := mul_width ih2 ih2
        have h2 : dg + dg = 2 * dg := by ring
        rwa [h2] at h1
      have hs_w : smulM (M01 (2*dg+4)) H H < 256 ^ (2 * dg) :=
        lt_of_le_of_lt Nat.and_le_left hHH
      obtain ⟨bc1, bc2, bc3⟩ := brtStep_spec bits taps dg gS ginvS F seed
        hgs hgw hgtop his hiw hdg hdg2 hF hann _ hs_clean hs_w
      have hsq_sem : ∀ j, evalS bits taps F
          (brtStep gS ginvS (M01 (2*dg+4)) (256 ^ dg) dg (smulM (M01 (2*dg+4)) H H))
          ((fwdL bits taps)^[j] seed)
          = (fwdL bits taps)^[(e >>> 1) + ((e >>> 1) + j)] seed := by
        intro j
        rw [bc3 j]
        show evalS bits taps F ((H * H) &&& M01 (2*dg+4)) _ = _
        rw [evalS_and_M01 bits taps F (2*dg+4) _ _
              (lt_of_lt_of_le hHH (Nat.pow_le_pow_right (by norm_num) (by omega)))
              (by omega)]
        rw [evalS_mul bits taps dg (by omega) dg F _ _ _ (by omega) ih1 ih2 ih1 ih2]
        rw [ih3 j, ih3 ((e >>> 1) + j)]
      rw [hstep]
      have heo : e = 2 * (e >>> 1) + e % 2 := by
        rw [Nat.shiftRight_one]
        omega
      by_cases hodd : e &&& 1 = 1
      · rw [if_pos hodd]
        rw [Nat.and_one_is_mod] at hodd
        obtain ⟨z1, z2, z3⟩ := szmulS_spec bits taps dg gS F seed hgs hgtop hdg hF
          hann _ bc1 bc2
        refine ⟨z1, z2, fun j => ?_⟩
        rw [z3 j, hsq_sem (j+1)]
        congr 1
        omega
      · rw [if_neg hodd]
        rw [Nat.and_one_is_mod] at hodd
        refine ⟨bc1, bc2, fun j => ?_⟩
        rw [hsq_sem j]
        congr 1
        omega

theorem minimalPeriod_of_cert (f : Nat → Nat) (x M : Nat) (hM : 0 < M)
    (hper : f^[M] x = x) (primes : List Nat)
    (hcov : ∀ q, Nat.Prime q → q ∣ M → q ∈ primes)
    (hne : ∀ q ∈ primes, f^[M / q] x ≠ x) :
    Function.minimalPeriod f x = M := by
  have hP : Function.IsPeriodicPt f M x := hper
  have hdvd : Function.minimalPeriod f x ∣ M := hP.minimalPeriod_dvd
  by_contra hne'
  set d := Function.minimalPeriod f x with hd
  have hlt : d < M := lt_of_le_of_ne (Nat.le_of_dvd hM hdvd) hne'
  obtain ⟨c, hc⟩ := hdvd
  have hc1 : c ≠ 1 := by
    intro h
    rw [h, Nat.mul_one] at hc
    omega
  obtain ⟨q, hq, hqc⟩ := Nat.exists_prime_and_dvd hc1
  have hqM : q ∣ M := hc ▸ Dvd.dvd.mul_left hqc d
  have hdq : d ∣ M / q := by
    obtain ⟨c', hc'⟩ := hqc
    refine ⟨c', ?_⟩
    rw [hc, hc', mul_comm q c', ← mul_assoc, Nat.mul_div_cancel _ hq.pos]
  have hp2 : Function.IsPeriodicPt f (M / q) x :=
    (Function.isPeriodicPt_minimalPeriod f x).trans_dvd hdq
  exact hne q (hcov q hq hqM) hp2

theorem orbit_inj (f : Nat → Nat) (x : Nat) {L M : Nat}
    (hmp : Function.minimalPeriod f x = M) (hL : L ≤ M) :
    ∀ i j, i < L → j < L → f^[i] x = f^[j] x → i = j := by
  intro i j hi hj hij
  exact Function.iterate_injOn_Iio_minimalPeriod
    (Set.mem_Iio.mpr (by omega)) (Set.mem_Iio.mpr (by omega)) hij

theorem prime_eq_of_dvd_pow {q p e : Nat} (hq : Nat.Prime q) (hp : Nat.Prime p)
    (h : q ∣ p ^ e) : q = p :=
  (Nat.prime_dvd_prime_iff_eq hq hp).mp (hq.dvd_of_dvd_pow h)

theorem mpow_spec (p : Nat) : ∀ f a e, e < 2 ^ f → mpow p f a e = a ^ e % p := by
  intro f
  induction f with
  | zero =>
    intro a e he
    have h0 : e = 0 := by omega
    subst h0
    show 1 % p = a ^ 0 % p
    rw [pow_zero]
  | succ f ih =>
    intro a e he
    by_cases he0 : e = 0
    · subst he0
      show 1 % p = a ^ 0 % p
      rw [pow_zero]
    · have hstep : mpow p (f+1) a e
          = (if e &&& 1 = 1
             then (mpow p f a (e >>> 1) * mpow p f a (e >>> 1) % p) * a % p
             else mpow p f a (e >>> 1) * mpow p f a (e >>> 1) % p) := by
        show (if e = 0 then 1 % p else _) = _
        rw [if_neg he0]
        dsimp only
        rw [if_pos (beq_self_eq_true _)]
      rw [hstep, ih a (e >>> 1) (by rw [Nat.shiftRight_one]; omega)]
      set k := e >>> 1 with hk
      have hA : a ^ k % p * (a ^ k % p) % p = a ^ k * a ^ k % p :=
        (Nat.mul_mod _ _ _).symm
      have h2 : e = 2 * k + e % 2 := by rw [hk, Nat.shiftRight_one]; omega
      by_cases ho : e &&& 1 = 1
      · rw [if_pos ho]
        rw [Nat.and_one_is_mod] at ho
        rw [hA, Nat.mod_mul_mod]
        congr 1
        rw [← pow_add, ← pow_succ]
        congr 1
        omega
      · rw [if_neg ho]
        rw [Nat.and_one_is_mod] at ho
        rw [hA]
        congr 1
        rw [← pow_add]
        congr 1
        omega

/-- Lucas primality certificate checked with `mpow`. -/
theorem prime_by_lucas (p a F : Nat) (hp2 : 2 ≤ p) (hF : p - 1 < 2 ^ F)
    (h1 : mpow p F a (p - 1) = 1) (primes : List Nat)
    (hcov : ∀ q, Nat.Prime q → q ∣ (p - 1) → q ∈ primes)
    (hne : ∀ q ∈ primes, mpow p F a ((p - 1) / q) ≠ 1) :
    Nat.Prime p := by
  apply lucas_primality p ((a : Nat) : ZMod p)
  · have hval := mpow_spec p F a (p - 1) hF
    have hnat : a ^ (p - 1) % p = 1 := by rw [← hval, h1]
    calc ((a : Nat) : ZMod p) ^ (p - 1)
        = ((a ^ (p - 1) : Nat) : ZMod p) := by push_cast; ring
      _ = ((a ^ (p - 1) % p : Nat) : ZMod p) := by
          rw [ZMod.natCast_eq_natCast_iff']
          rw [Nat.mod_mod_of_dvd _ (dvd_refl p)]
      _ = ((1 : Nat) : ZMod p) := by rw [hnat]
      _ = 1 := Nat.cast_one
  · intro q hq hdvd hcontra
    have hmem := hcov q hq hdvd
    have hval := mpow_spec p F a ((p - 1) / q)
      (by have := Nat.div_le_self (p - 1) q; omega)
    have hc2 : ((a ^ ((p - 1) / q) : Nat) : ZMod p) = ((1 : Nat) : ZMod p) := by
      push_cast
      rw [hcontra]
    have hc3 := (ZMod.natCast_eq_natCast_iff' _ _ _).mp hc2
    have h1p : 1 % p = 1 := Nat.mod_eq_of_lt (by omega)
    exact hne q hmem (by rw [hval, hc3, h1p])

theorem prime_6700417 : Nat.Prime 6700417 := by
  apply prime_by_lucas 6700417 5 32 (by norm_num) (by norm_num) (by decide!)
    [2, 3, 17449] ?_ ?_
  · intro q hq hdvd
    have h1 : (6700417 - 1 : Nat) = 2 ^ 7 * (3 ^ 1 * 17449 ^ 1) := by norm_num
    rw [h1] at hdvd
    rcases (Nat.Prime.dvd_mul hq).mp hdvd with h | h
    · rw [prime_eq_of_dvd_pow hq (by norm_num) h]; decide
    rcases (Nat.Prime.dvd_mul hq).mp h with h | h
    · rw [prime_eq_of_dvd_pow hq (by norm_num) h]; decide
    · rw [prime_eq_of_dvd_pow hq (by norm_num) h]; decide
  · intro q hqmem
    fin_cases hqmem <;> decide!

theorem prime_616318177 : Nat.Prime 616318177 := by
  apply prime_by_lucas 616318177 5 32 (by norm_num) (by norm_num) (by decide!)
    [2, 3, 37, 167, 1039] ?_ ?_
  · intro q hq hdvd
    have h1 : (616318177 - 1 : Nat)
        = 2 ^ 5 * (3 ^ 1 * (37 ^ 1 * (167 ^ 1 * 1039 ^ 1))) := by norm_num
    rw [h1] at hdvd
    rcases (Nat.Prime.dvd_mul hq).mp hdvd with h | h
    · rw [prime_eq_of_dvd_pow hq (by norm_num) h]; decide
    rcases (Nat.Prime.dvd_mul hq).mp h with h | h
    · rw [prime_eq_of_dvd_pow hq (by norm_num) h]; decide
    rcases (Nat.Prime.dvd_mul hq).mp h with h | h
    · rw [prime_eq_of_dvd_pow hq (by norm_num) h]; decide
    rcases (Nat.Prime.dvd_mul hq).mp h with h | h
    · rw [prime_eq_of_dvd_pow hq (by norm_num) h]; decide
    · rw [prime_eq_of_dvd_pow hq (by norm_num) h]; decide
  · intro q hqmem
    fin_cases hqmem <;> decide!

theorem slotsLE_of_masked {w K : Nat} (h : w &&& M01 K = w) : slotsLE 1 w :=
  h ▸ slotsLE_and_M01 w K

theorem cov_1048575 : ∀ q, Nat.Prime q → q ∣ 1048575 → q ∈ [3, 5, 11, 31, 41] := by
  intro q hq hdvd
  have h1 : (1048575 : Nat) = 3 ^ 1 * (5 ^ 2 * (11 ^ 1 * (31 ^ 1 * (41 ^ 1)))) := by
    norm_num
  rw [h1] at hdvd
  rcases (Nat.Prime.dvd_mul hq).mp hdvd with h | h
  · rw [prime_eq_of_dvd_pow hq (by norm_num) h]; decide
  clear hdvd
  have hdvd := h
  clear h
  rcases (Nat.Prime.dvd_mul hq).mp hdvd with h | h
  · rw [prime_eq_of_dvd_pow hq (by norm_num) h]; decide
  clear hdvd
  have hdvd := h
  clear h
  rcases (Nat.Prime.dvd_mul hq).mp hdvd with h | h
  · rw [prime_eq_of_dvd_pow hq (by norm_num) h]; decide
  clear hdvd
  have hdvd := h
  clear h
  rcases (Nat.Prime.dvd_mul hq).mp hdvd with h | h
  · rw [prime_eq_of_dvd_pow hq (by norm_num) h]; decide
  clear hdvd
  have hdvd := h
  clear h
  rw [prime_eq_of_dvd_pow hq (by norm_num) hdvd]; decide

theorem cov_8388607 : ∀ q, Nat.Prime q → q ∣ 8388607 → q ∈ [47, 178481] := by
  intro q hq hdvd
  have h1 : (8388607 : Nat) = 47 ^ 1 * (178481 ^ 1) := by
    norm_num
  rw [h1] at hdvd
  rcases (Nat.Prime.dvd_mul hq).mp hdvd with h | h
  · rw [prime_eq_of_dvd_pow hq (by norm_num) h]; decide
  clear hdvd
  have hdvd := h
  clear h
  rw [prime_eq_of_dvd_pow hq (by norm_num) hdvd]; decide

theorem cov_20971515 : ∀ q, Nat.Prime q → q ∣ 20971515 → q ∈ [3, 5, 23, 89, 683] := by
  intro q hq hdvd
  have h1 : (20971515 : Nat) = 3 ^ 1 * (5 ^ 1 * (23 ^ 1 * (89 ^ 1 * (683 ^ 1)))) := by
    norm_num
  rw [h1] at hdvd
  rcases (Nat.Prime.dvd_mul hq).mp hdvd with h | h
  · rw [prime_eq_of_dvd_pow hq (by norm_num) h]; decide
  clear hdvd
  have hdvd := h
  clear h
  rcases (Nat.Prime.dvd_mul hq).mp hdvd with h | h
  · rw [prime_eq_of_dvd_pow hq (by norm_num) h]; decide
  clear hdvd
  have hdvd := h
  clear h
  rcases (Nat.Prime.dvd_mul hq).mp hdvd with h | h
  · rw [prime_eq_of_dvd_pow hq (by norm_num) h]; decide
  clear hdvd
  have hdvd := h
  clear h
  rcases (Nat.Prime.dvd_mul hq).mp hdvd with h | h
  · rw [prime_eq_of_dvd_pow hq (by norm_num) h]; decide
  clear hdvd
  have hdvd := h
  clear h
  rw [prime_eq_of_dvd_pow hq (by norm_num) hdvd]; decide

theorem cov_5182155653695296648150935159179260 : ∀ q, Nat.Prime q → q ∣ 5182155653695296648150935159179260 → q ∈ [2, 3, 5, 7, 17, 73, 223, 257, 641, 65537, 6700417, 616318177] := by
  intro q hq hdvd
  have h1 : (5182155653695296648150935159179260 : Nat) = 2 ^ 2 * (3 ^ 1 * (5 ^ 1 * (7 ^ 1 * (17 ^ 1 * (73 ^ 1 * (223 ^ 1 * (257 ^ 1 * (641 ^ 1 * (65537 ^ 1 * (6700417 ^ 1 * (616318177 ^ 1))))))))))) := by
    norm_num
  rw [h1] at hdvd
  rcases (Nat.Prime.dvd_mul hq).mp hdvd with h | h
  · rw [prime_eq_of_dvd_pow hq (by norm_num) h]; decide
  clear hdvd
  have hdvd := h
  clear h
  rcases (Nat.Prime.dvd_mul hq).mp hdvd with h | h
  · rw [prime_eq_of_dvd_pow hq (by norm_num) h]; decide
  clear hdvd
  have hdvd := h
  clear h
  rcases (Nat.Prime.dvd_mul hq).mp hdvd with h | h
  · rw [prime_eq_of_dvd_pow hq (by norm_num) h]; decide
  clear hdvd
  have hdvd := h
  clear h
  rcases (Nat.Prime.dvd_mul hq).mp hdvd with h | h
  · rw [prime_eq_of_dvd_pow hq (by norm_num) h]; decide
  clear hdvd
  have hdvd := h
  clear h
  rcases (Nat.Prime.dvd_mul hq).mp hdvd with h | h
  · rw [prime_eq_of_dvd_pow hq (by norm_num) h]; decide
  clear hdvd
  have hdvd := h
  clear h
  rcases (Nat.Prime.dvd_mul hq).mp hdvd with h | h
  · rw [prime_eq_of_dvd_pow hq (by norm_num) h]; decide
  clear hdvd
  have hdvd := h
  clear h
  rcases (Nat.Prime.dvd_mul hq).mp hdvd with h | h
  · rw [prime_eq_of_dvd_pow hq (by norm_num) h]; decide
  clear hdvd
  have hdvd := h
  clear h
  rcases (Nat.Prime.dvd_mul hq).mp hdvd with h | h
  · rw [prime_eq_of_dvd_pow hq (by norm_num) h]; decide
  clear hdvd
  have hdvd := h
  clear h
  rcases (Nat.Prime.dvd_mul hq).mp hdvd with h | h
  · rw [prime_eq_of_dvd_pow hq (by norm_num) h]; decide
  clear hdvd
  have hdvd := h
  clear h
  rcases (Nat.Prime.dvd_mul hq).mp hdvd with h | h
  · rw [prime_eq_of_dvd_pow hq (by norm_num) h]; decide
  clear hdvd
  have hdvd := h
  clear h
  rcases (Nat.Prime.dvd_mul hq).mp hdvd with h | h
  · rw [prime_eq_of_dvd_pow hq (prime_6700417) h]; decide
  clear hdvd
  have hdvd := h
  clear h
  rw [prime_eq_of_dvd_pow hq (prime_616318177) hdvd]; decide

/-- Order certificate: the forward orbit of the seed has minimal period
`1048575` for this format group. -/
theorem cert_s2a_59017 :
    Function.minimalPeriod (fwdL 20 0x361e4) 0x59017 = 1048575 := by
  have hseed : (0x59017 : Nat) < 2 ^ 20 := by norm_num
  have hbr : ∀ S : Nat, evalF 20 0x361e4 256 S 0x59017
      = evalS 20 0x361e4 256 S 0x59017 :=
    fun S => evalF_eq 20 0x361e4 (by norm_num) (by norm_num) 256 S _ hseed
  have hann0 : evalS 20 0x361e4 256 gS_s2a 0x59017 = 0 := by
    rw [← hbr]
    decide!
  have hann : ∀ j, evalS 20 0x361e4 256 gS_s2a
      ((fwdL 20 0x361e4)^[j] 0x59017) = 0 := by
    intro j
    rw [evalS_comm_iter, hann0]
    exact Function.iterate_fixed (fwdL_zero 20 0x361e4) j
  have hmaster := spowS_spec 20 0x361e4 20 gS_s2a ginvS_s2a 256 0x59017
    (slotsLE_of_masked (by decide! : gS_s2a &&& M01 256 = gS_s2a))
    (by decide!) (by decide!)
    (slotsLE_of_masked (by decide! : ginvS_s2a &&& M01 256 = ginvS_s2a))
    (by decide!) (by norm_num) (by norm_num) (by norm_num) hann
  have key : ∀ e : Nat, e < 2 ^ 120 →
      evalS 20 0x361e4 256
          (spowS gS_s2a ginvS_s2a (M01 (2*20+4)) (256 ^ 20) 20 120 e)
          0x59017
        = (fwdL 20 0x361e4)^[e] 0x59017 := by
    intro e he
    have h := (hmaster 120 e he).2.2 0
    simpa using h
  apply minimalPeriod_of_cert _ _ _ (by norm_num) ?_ [3, 5, 11, 31, 41]
    cov_1048575 ?_
  · rw [← key 1048575 (by norm_num), ← hbr]
    decide!
  · intro q hqmem
    fin_cases hqmem <;>
      (intro heq
       rw [← key _ (by norm_num), ← hbr] at heq
       revert heq
       decide!)

/-- Order certificate: the forward orbit of the seed has minimal period
`1048575` for this format group. -/
theorem cert_s2b_8f3c6 :
    Function.minimalPeriod (fwdL 20 0x4f0d8) 0x8f3c6 = 1048575 := by
  have hseed : (0x8f3c6 : Nat) < 2 ^ 20 := by norm_num
  have hbr : ∀ S : Nat, evalF 20 0x4f0d8 256 S 0x8f3c6
      = evalS 20 0x4f0d8 256 S 0x8f3c6 :=
    fun S => evalF_eq 20 0x4f0d8 (by norm_num) (by norm_num) 256 S _ hseed
  have hann0 : evalS 20 0x4f0d8 256 gS_s2b 0x8f3c6 = 0 := by
    rw [← hbr]
    decide!
  have hann : ∀ j, evalS 20 0x4f0d8 256 gS_s2b
      ((fwdL 20 0x4f0d8)^[j] 0x8f3c6) = 0 := by
    intro j
    rw [evalS_comm_iter, hann0]
    exact Function.iterate_fixed (fwdL_zero 20 0x4f0d8) j
  have hmaster := spowS_spec 20 0x4f0d8 20 gS_s2b ginvS_s2b 256 0x8f3c6
    (slotsLE_of_masked (by decide! : gS_s2b &&& M01 256 = gS_s2b))
    (by decide!) (by decide!)
    (slotsLE_of_masked (by decide! : ginvS_s2b &&& M01 256 = ginvS_s2b))
    (by decide!) (by norm_num) (by norm_num) (by norm_num) hann
  have key : ∀ e : Nat, e < 2 ^ 120 →
      evalS 20 0x4f0d8 256
          (spowS gS_s2b ginvS_s2b (M01 (2*20+4)) (256 ^ 20) 20 120 e)
          0x8f3c6
        = (fwdL 20 0x4f0d8)^[e] 0x8f3c6 := by
    intro e he
    have h := (hmaster 120 e he).2.2 0
    simpa using h
  apply minimalPeriod_of_cert _ _ _ (by norm_num) ?_ [3, 5, 11, 31, 41]
    cov_1048575 ?_
  · rw [← key 1048575 (by norm_num), ← hbr]
    decide!
  · intro q hqmem
    fin_cases hqmem <;>
      (intro heq
       rw [← key _ (by norm_num), ← hbr] at heq
       revert heq
       decide!)

/-- Order certificate: the forward orbit of the seed has minimal period
`1048575` for this format group. -/
theorem cert_scd_d8b40 :
    Function.minimalPeriod (fwdL 20 0x34d54) 0xd8b40 = 1048575 := by
  have hseed : (0xd8b40 : Nat) < 2 ^ 20 := by norm_num
  have hbr : ∀ S : Nat, evalF 20 0x34d54 256 S 0xd8b40
      = evalS 20 0x34d54 256 S 0xd8b40 :=
    fun S => evalF_eq 20 0x34d54 (by norm_num) (by norm_num) 256 S _ hseed
  have hann0 : evalS 20 0x34d54 256 gS_scd 0xd8b40 = 0 := by
    rw [← hbr]
    decide!
  have hann : ∀ j, evalS 20 0x34d54 256 gS_scd
      ((fwdL 20 0x34d54)^[j] 0xd8b40) = 0 := by
    intro j
    rw [evalS_comm_iter, hann0]
    exact Function.iterate_fixed (fwdL_zero 20 0x34d54) j
  have hmaster := spowS_spec 20 0x34d54 20 gS_scd ginvS_scd 256 0xd8b40
    (slotsLE_of_masked (by decide! : gS_scd &&& M01 256 = gS_scd))
    (by decide!) (by decide!)
    (slotsLE_of_masked (by decide! : ginvS_scd &&& M01 256 = ginvS_scd))
    (by decide!) (by norm_num) (by norm_num) (by norm_num) hann
  have key : ∀ e : Nat, e < 2 ^ 120 →
      evalS 20 0x34d54 256
          (spowS gS_scd ginvS_scd (M01 (2*20+4)) (256 ^ 20) 20 120 e)
          0xd8b40
        = (fwdL 20 0x34d54)^[e] 0xd8b40 := by
    intro e he
    have h := (hmaster 120 e he).2.2 0
    simpa using h
  apply minimalPeriod_of_cert _ _ _ (by norm_num) ?_ [3, 5, 11, 31, 41]
    cov_1048575 ?_
  · rw [← key 1048575 (by norm_num), ← hbr]
    decide!
  · intro q hqmem
    fin_cases hqmem <;>
      (intro heq
       rw [← key _ (by norm_num), ← hbr] at heq
       revert heq
       decide!)

/-- Order certificate: the forward orbit of the seed has minimal period
`8388607` for this format group. -/
theorem cert_trk_134503 :
    Function.minimalPeriod (fwdL 23 0x41040) 0x134503 = 8388607 := by
  have hseed : (0x134503 : Nat) < 2 ^ 23 := by norm_num
  have hbr : ∀ S : Nat, evalF 23 0x41040 256 S 0x134503
      = evalS 23 0x41040 256 S 0x134503 :=
    fun S => evalF_eq 23 0x41040 (by norm_num) (by norm_num) 256 S _ hseed
  have hann0 : evalS 23 0x41040 256 gS_trk 0x134503 = 0 := by
    rw [← hbr]
    decide!
  have hann : ∀ j, evalS 23 0x41040 256 gS_trk
      ((fwdL 23 0x41040)^[j] 0x134503) = 0 := by
    intro j
    rw [evalS_comm_iter, hann0]
    exact Function.iterate_fixed (fwdL_zero 23 0x41040) j
  have hmaster := spowS_spec 23 0x41040 23 gS_trk ginvS_trk 256 0x134503
    (slotsLE_of_masked (by decide! : gS_trk &&& M01 256 = gS_trk))
    (by decide!) (by decide!)
    (slotsLE_of_masked (by decide! : ginvS_trk &&& M01 256 = ginvS_trk))
    (by decide!) (by norm_num) (by norm_num) (by norm_num) hann
  have key : ∀ e : Nat, e < 2 ^ 120 →
      evalS 23 0x41040 256
          (spowS gS_trk ginvS_trk (M01 (2*23+4)) (256 ^ 23) 23 120 e)
          0x134503
        = (fwdL 23 0x41040)^[e] 0x134503 := by
    intro e he
    have h := (hmaster 120 e he).2.2 0
    simpa using h
  apply minimalPeriod_of_cert _ _ _ (by norm_num) ?_ [47, 178481]
    cov_8388607 ?_
  · rw [← key 8388607 (by norm_num), ← hbr]
    decide!
  · intro q hqmem
    fin_cases hqmem <;>
      (intro heq
       rw [← key _ (by norm_num), ← hbr] at heq
       revert heq
       decide!)

/-- Order certificate: the forward orbit of the seed has minimal period
`8388607` for this format group. -/
theorem cert_trk_32066c :
    Function.minimalPeriod (fwdL 23 0x41040) 0x32066c = 8388607 := by
  have hseed : (0x32066c : Nat) < 2 ^ 23 := by norm_num
  have hbr : ∀ S : Nat, evalF 23 0x41040 256 S 0x32066c
      = evalS 23 0x41040 256 S 0x32066c :=
    fun S => evalF_eq 23 0x41040 (by norm_num) (by norm_num) 256 S _ hseed
  have hann0 : evalS 23 0x41040 256 gS_trk 0x32066c = 0 := by
    rw [← hbr]
    decide!
  have hann : ∀ j, evalS 23 0x41040 256 gS_trk
      ((fwdL 23 0x41040)^[j] 0x32066c) = 0 := by
    intro j
    rw [evalS_comm_iter, hann0]
    exact Function.iterate_fixed (fwdL_zero 23 0x41040) j
  have hmaster := spowS_spec 23 0x41040 23 gS_trk ginvS_trk 256 0x32066c
    (slotsLE_of_masked (by decide! : gS_trk &&& M01 256 = gS_trk))
    (by decide!) (by decide!)
    (slotsLE_of_masked (by decide! : ginvS_trk &&& M01 256 = ginvS_trk))
    (by decide!) (by norm_num) (by norm_num) (by norm_num) hann
  have key : ∀ e : Nat, e < 2 ^ 120 →
      evalS 23 0x41040 256
          (spowS gS_trk ginvS_trk (M01 (2*23+4)) (256 ^ 23) 23 120 e)
          0x32066c
        = (fwdL 23 0x41040)^[e] 0x32066c := by
    intro e he
    have h := (hmaster 120 e he).2.2 0
    simpa using h
  apply minimalPeriod_of_cert _ _ _ (by norm_num) ?_ [47, 178481]
    cov_8388607 ?_
  · rw [← key 8388607 (by norm_num), ← hbr]
    decide!
  · intro q hqmem
    fin_cases hqmem <;>
      (intro heq
       rw [← key _ (by norm_num), ← hbr] at heq
       revert heq
       decide!)

/-- Order certificate: the forward orbit of the seed has minimal period
`20971515` for this format group. -/
theorem cert_mk2ab_339c1f :
    Function.minimalPeriod (fwdL 110 0x4000000000400000010800000001) 0x339c1f39f18c7fe0063f8f83e0f9 = 20971515 := by
  have hseed : (0x339c1f39f18c7fe0063f8f83e0f9 : Nat) < 2 ^ 110 := by norm_num
  have hbr : ∀ S : Nat, evalF 110 0x4000000000400000010800000001 256 S 0x339c1f39f18c7fe0063f8f83e0f9
      = evalS 110 0x4000000000400000010800000001 256 S 0x339c1f39f18c7fe0063f8f83e0f9 :=
    fun S => evalF_eq 110 0x4000000000400000010800000001 (by norm_num) (by norm_num) 256 S _ hseed
  have hann0 : evalS 110 0x4000000000400000010800000001 256 gS_mk2ab 0x339c1f39f18c7fe0063f8f83e0f9 = 0 := by
    rw [← hbr]
    decide!
  have hann : ∀ j, evalS 110 0x4000000000400000010800000001 256 gS_mk2ab
      ((fwdL 110 0x4000000000400000010800000001)^[j] 0x339c1f39f18c7fe0063f8f83e0f9) = 0 := by
    intro j
    rw [evalS_comm_iter, hann0]
    exact Function.iterate_fixed (fwdL_zero 110 0x4000000000400000010800000001) j
  have hmaster := spowS_spec 110 0x4000000000400000010800000001 110 gS_mk2ab ginvS_mk2ab 256 0x339c1f39f18c7fe0063f8f83e0f9
    (slotsLE_of_masked (by decide! : gS_mk2ab &&& M01 256 = gS_mk2ab))
    (by decide!) (by decide!)
    (slotsLE_of_masked (by decide! : ginvS_mk2ab &&& M01 256 = ginvS_mk2ab))
    (by decide!) (by norm_num) (by norm_num) (by norm_num) hann
  have key : ∀ e : Nat, e < 2 ^ 120 →
      evalS 110 0x4000000000400000010800000001 256
          (spowS gS_mk2ab ginvS_mk2ab (M01 (2*110+4)) (256 ^ 110) 110 120 e)
          0x339c1f39f18c7fe0063f8f83e0f9
        = (fwdL 110 0x4000000000400000010800000001)^[e] 0x339c1f39f18c7fe0063f8f83e0f9 := by
    intro e he
    have h := (hmaster 120 e he).2.2 0
    simpa using h
  apply minimalPeriod_of_cert _ _ _ (by norm_num) ?_ [3, 5, 23, 89, 683]
    cov_20971515 ?_
  · rw [← key 20971515 (by norm_num), ← hbr]
    decide!
  · intro q hqmem
    fin_cases hqmem <;>
      (intro heq
       rw [← key _ (by norm_num), ← hbr] at heq
       revert heq
       decide!)

/-- Order certificate: the forward orbit of the seed has minimal period
`20971515` for this format group. -/
theorem cert_mk2ab_20e73f :
    Function.minimalPeriod (fwdL 110 0x4000000000400000010800000001) 0x20e73fc0707cf8c00e7ffcf807c0 = 20971515 := by
  have hseed : (0x20e73fc0707cf8c00e7ffcf807c0 : Nat) < 2 ^ 110 := by norm_num
  have hbr : ∀ S : Nat, evalF 110 0x4000000000400000010800000001 256 S 0x20e73fc0707cf8c00e7ffcf807c0
      = evalS 110 0x4000000000400000010800000001 256 S 0x20e73fc0707cf8c00e7ffcf807c0 :=
    fun S => evalF_eq 110 0x4000000000400000010800000001 (by norm_num) (by norm_num) 256 S _ hseed
  have hann0 : evalS 110 0x4000000000400000010800000001 256 gS_mk2ab 0x20e73fc0707cf8c00e7ffcf807c0 = 0 := by
    rw [← hbr]
    decide!
  have hann : ∀ j, evalS 110 0x4000000000400000010800000001 256 gS_mk2ab
      ((fwdL 110 0x4000000000400000010800000001)^[j] 0x20e73fc0707cf8c00e7ffcf807c0) = 0 := by
    intro j
    rw [evalS_comm_iter, hann0]
    exact Function.iterate_fixed (fwdL_zero 110 0x4000000000400000010800000001) j
  have hmaster := spowS_spec 110 0x4000000000400000010800000001 110 gS_mk2ab ginvS_mk2ab 256 0x20e73fc0707cf8c00e7ffcf807c0
    (slotsLE_of_masked (by decide! : gS_mk2ab &&& M01 256 = gS_mk2ab))
    (by decide!) (by decide!)
    (slotsLE_of_masked (by decide! : ginvS_mk2ab &&& M01 256 = ginvS_mk2ab))
    (by decide!) (by norm_num) (by norm_num) (by norm_num) hann
  have key : ∀ e : Nat, e < 2 ^ 120 →
      evalS 110 0x4000000000400000010800000001 256
          (spowS gS_mk2ab ginvS_mk2ab (M01 (2*110+4)) (256 ^ 110) 110 120 e)
          0x20e73fc0707cf8c00e7ffcf807c0
        = (fwdL 110 0x4000000000400000010800000001)^[e] 0x20e73fc0707cf8c00e7ffcf807c0 := by
    intro e he
    have h := (hmaster 120 e he).2.2 0
    simpa using h
  apply minimalPeriod_of_cert _ _ _ (by norm_num) ?_ [3, 5, 23, 89, 683]
    cov_20971515 ?_
  · rw [← key 20971515 (by norm_num), ← hbr]
    decide!
  · intro q hqmem
    fin_cases hqmem <;>
      (intro heq
       rw [← key _ (by norm_num), ← hbr] at heq
       revert heq
       decide!)

/-- Order certificate: the forward orbit of the seed has minimal period
`5182155653695296648150935159179260` for this format group. -/
theorem cert_mk2cd_1f9fff :
    Function.minimalPeriod (fwdL 113 0x4000000000001000010800000001) 0x1f9fff01f1ff9fe7f9c1ff9cff3e3 = 5182155653695296648150935159179260 := by
  have hseed : (0x1f9fff01f1ff9fe7f9c1ff9cff3e3 : Nat) < 2 ^ 113 := by norm_num
  have hbr : ∀ S : Nat, evalF 113 0x4000000000001000010800000001 256 S 0x1f9fff01f1ff9fe7f9c1ff9cff3e3
      = evalS 113 0x4000000000001000010800000001 256 S 0x1f9fff01f1ff9fe7f9c1ff9cff3e3 :=
    fun S => evalF_eq 113 0x4000000000001000010800000001 (by norm_num) (by norm_num) 256 S _ hseed
  have hann0 : evalS 113 0x4000000000001000010800000001 256 gS_mk2cd 0x1f9fff01f1ff9fe7f9c1ff9cff3e3 = 0 := by
    rw [← hbr]
    decide!
  have hann : ∀ j, evalS 113 0x4000000000001000010800000001 256 gS_mk2cd
      ((fwdL 113 0x4000000000001000010800000001)^[j] 0x1f9fff01f1ff9fe7f9c1ff9cff3e3) = 0 := by
    intro j
    rw [evalS_comm_iter, hann0]
    exact Function.iterate_fixed (fwdL_zero 113 0x4000000000001000010800000001) j
  have hmaster := spowS_spec 113 0x4000000000001000010800000001 113 gS_mk2cd ginvS_mk2cd 256 0x1f9fff01f1ff9fe7f9c1ff9cff3e3
    (slotsLE_of_masked (by decide! : gS_mk2cd &&& M01 256 = gS_mk2cd))
    (by decide!) (by decide!)
    (slotsLE_of_masked (by decide! : ginvS_mk2cd &&& M01 256 = ginvS_mk2cd))
    (by decide!) (by norm_num) (by norm_num) (by norm_num) hann
  have key : ∀ e : Nat, e < 2 ^ 120 →
      evalS 113 0x4000000000001000010800000001 256
          (spowS gS_mk2cd ginvS_mk2cd (M01 (2*113+4)) (256 ^ 113) 113 120 e)
          0x1f9fff01f1ff9fe7f9c1ff9cff3e3
        = (fwdL 113 0x4000000000001000010800000001)^[e] 0x1f9fff01f1ff9fe7f9c1ff9cff3e3 := by
    intro e he
    have h := (hmaster 120 e he).2.2 0
    simpa using h
  apply minimalPeriod_of_cert _ _ _ (by norm_num) ?_ [2, 3, 5, 7, 17, 73, 223, 257, 641, 65537, 6700417, 616318177]
    cov_5182155653695296648150935159179260 ?_
  · rw [← key 5182155653695296648150935159179260 (by norm_num), ← hbr]
    decide!
  · intro q hqmem
    fin_cases hqmem <;>
      (intro heq
       rw [← key _ (by norm_num), ← hbr] at heq
       revert heq
       decide!)

/-- Order certificate: the forward orbit of the seed has minimal period
`1048575` for this format group. -/
theorem cert_mvb_22c90 :
    Function.minimalPeriod (fwdL 20 0x8) 0x22c90 = 1048575 := by
  have hseed : (0x22c90 : Nat) < 2 ^ 20 := by norm_num
  have hbr : ∀ S : Nat, evalF 20 0x8 256 S 0x22c90
      = evalS 20 0x8 256 S 0x22c90 :=
    fun S => evalF_eq 20 0x8 (by norm_num) (by norm_num) 256 S _ hseed
  have hann0 : evalS 20 0x8 256 gS_mvb 0x22c90 = 0 := by
    rw [← hbr]
    decide!
  have hann : ∀ j, evalS 20 0x8 256 gS_mvb
      ((fwdL 20 0x8)^[j] 0x22c90) = 0 := by
    intro j
    rw [evalS_comm_iter, hann0]
    exact Function.iterate_fixed (fwdL_zero 20 0x8) j
  have hmaster := spowS_spec 20 0x8 20 gS_mvb ginvS_mvb 256 0x22c90
    (slotsLE_of_masked (by decide! : gS_mvb &&& M01 256 = gS_mvb))
    (by decide!) (by decide!)
    (slotsLE_of_masked (by decide! : ginvS_mvb &&& M01 256 = ginvS_mvb))
    (by decide!) (by norm_num) (by norm_num) (by norm_num) hann
  have key : ∀ e : Nat, e < 2 ^ 120 →
      evalS 20 0x8 256
          (spowS gS_mvb ginvS_mvb (M01 (2*20+4)) (256 ^ 20) 20 120 e)
          0x22c90
        = (fwdL 20 0x8)^[e] 0x22c90 := by
    intro e he
    have h := (hmaster 120 e he).2.2 0
    simpa using h
  apply minimalPeriod_of_cert _ _ _ (by norm_num) ?_ [3, 5, 11, 31, 41]
    cov_1048575 ?_
  · rw [← key 1048575 (by norm_num), ← hbr]
    decide!
  · intro q hqmem
    fin_cases hqmem <;>
      (intro heq
       rw [← key _ (by norm_num), ← hbr] at heq
       revert heq
       decide!)

/-- Order certificate: the forward orbit of the seed has minimal period
`1048575` for this format group. -/
theorem cert_pioa_78370 :
    Function.minimalPeriod (fwdL 20 0x7933a) 0x78370 = 1048575 := by
  have hseed : (0x78370 : Nat) < 2 ^ 20 := by norm_num
  have hbr : ∀ S : Nat, evalF 20 0x7933a 256 S 0x78370
      = evalS 20 0x7933a 256 S 0x78370 :=
    fun S => evalF_eq 20 0x7933a (by norm_num) (by norm_num) 256 S _ hseed
  have hann0 : evalS 20 0x7933a 256 gS_pioa 0x78370 = 0 := by
    rw [← hbr]
    decide!
  have hann : ∀ j, evalS 20 0x7933a 256 gS_pioa
      ((fwdL 20 0x7933a)^[j] 0x78370) = 0 := by
    intro j
    rw [evalS_comm_iter, hann0]
    exact Function.iterate_fixed (fwdL_zero 20 0x7933a) j
  have hmaster := spowS_spec 20 0x7933a 20 gS_pioa ginvS_pioa 256 0x78370
    (slotsLE_of_masked (by decide! : gS_pioa &&& M01 256 = gS_pioa))
    (by decide!) (by decide!)
    (slotsLE_of_masked (by decide! : ginvS_pioa &&& M01 256 = ginvS_pioa))
    (by decide!) (by norm_num) (by norm_num) (by norm_num) hann
  have key : ∀ e : Nat, e < 2 ^ 120 →
      evalS 20 0x7933a 256
          (spowS gS_pioa ginvS_pioa (M01 (2*20+4)) (256 ^ 20) 20 120 e)
          0x78370
        = (fwdL 20 0x7933a)^[e] 0x78370 := by
    intro e he
    have h := (hmaster 120 e he).2.2 0
    simpa using h
  apply minimalPeriod_of_cert _ _ _ (by norm_num) ?_ [3, 5, 11, 31, 41]
    cov_1048575 ?_
  · rw [← key 1048575 (by norm_num), ← hbr]
    decide!
  · intro q hqmem
    fin_cases hqmem <;>
      (intro heq
       rw [← key _ (by norm_num), ← hbr] at heq
       revert heq
       decide!)

/-- Order certificate: the forward orbit of the seed has minimal period
`1048575` for this format group. -/
theorem cert_piob_f7012 :
    Function.minimalPeriod (fwdL 20 0x2ef1c) 0xf7012 = 1048575 := by
  have hseed : (0xf7012 : Nat) < 2 ^ 20 := by norm_num
  have hbr : ∀ S : Nat, evalF 20 0x2ef1c 256 S 0xf7012
      = evalS 20 0x2ef1c 256 S 0xf7012 :=
    fun S => evalF_eq 20 0x2ef1c (by norm_num) (by norm_num) 256 S _ hseed
  have hann0 : evalS 20 0x2ef1c 256 gS_piob 0xf7012 = 0 := by
    rw [← hbr]
    decide!
  have hann : ∀ j, evalS 20 0x2ef1c 256 gS_piob
      ((fwdL 20 0x2ef1c)^[j] 0xf7012) = 0 := by
    intro j
    rw [evalS_comm_iter, hann0]
    exact Function.iterate_fixed (fwdL_zero 20 0x2ef1c) j
  have hmaster := spowS_spec 20 0x2ef1c 20 gS_piob ginvS_piob 256 0xf7012
    (slotsLE_of_masked (by decide! : gS_piob &&& M01 256 = gS_piob))
    (by decide!) (by decide!)
    (slotsLE_of_masked (by decide! : ginvS_piob &&& M01 256 = ginvS_piob))
    (by decide!) (by norm_num) (by norm_num) (by norm_num) hann
  have key : ∀ e : Nat, e < 2 ^ 120 →
      evalS 20 0x2ef1c 256
          (spowS gS_piob ginvS_piob (M01 (2*20+4)) (256 ^ 20) 20 120 e)
          0xf7012
        = (fwdL 20 0x2ef1c)^[e] 0xf7012 := by
    intro e he
    have h := (hmaster 120 e he).2.2 0
    simpa using h
  apply minimalPeriod_of_cert _ _ _ (by norm_num) ?_ [3, 5, 11, 31, 41]
    cov_1048575 ?_
  · rw [← key 1048575 (by norm_num), ← hbr]
    decide!
  · intro q hqmem
    fin_cases hqmem <;>
      (intro heq
       rw [← key _ (by norm_num), ← hbr] at heq
       revert heq
       decide!)

theorem fwd_eq_fwdL (d : timecode_def) (hb : 1 ≤ d.bits) {x : Nat}
    (hx : x < 2 ^ d.bits) : fwd x d = fwdL d.bits d.taps x := by
  unfold fwd fwdL
  rw [lfsr_eq_par]
  apply or_eq_xor_of_and_eq_zero
  apply and_shiftLeft_eq_zero
  rw [Nat.shiftRight_eq_div_pow]
  apply Nat.div_lt_of_lt_mul
  calc x < 2 ^ d.bits := hx
    _ = 2 ^ 1 * 2 ^ (d.bits - 1) := by
        rw [← pow_add]
        congr 1
        omega

theorem fwd_iter_eq (d : timecode_def) (hb : 1 ≤ d.bits)
    (hs : d.seed < 2 ^ d.bits) : ∀ n,
    (fun y => fwd y d)^[n] d.seed = (fwdL d.bits d.taps)^[n] d.seed ∧
    (fwdL d.bits d.taps)^[n] d.seed < 2 ^ d.bits := by
  intro n
  induction n with
  | zero => exact ⟨rfl, hs⟩
  | succ n ih =>
    obtain ⟨h1, h2⟩ := ih
    refine ⟨?_, ?_⟩
    · rw [Function.iterate_succ_apply', Function.iterate_succ_apply', h1,
          fwd_eq_fwdL d hb h2]
    · rw [Function.iterate_succ_apply']
      exact fwdL_lt _ _ hb h2

-- === lookup table lemmas ===

theorem lut_lookup_eq_none_iff (v : Nat) : ∀ l : List Nat,
    lut_lookup l v = none ↔ v ∉ l := by
  intro l
  induction l with
  | nil => simp [lut_lookup]
  | cons y ys ih =>
    by_cases h : y = v
    · subst h
      simp [lut_lookup]
    · simp [lut_lookup, h, Option.map_eq_none', ih]
      omega

theorem lut_lookup_append (a v : Nat) : ∀ l : List Nat,
    lut_lookup (l ++ [a]) v
      = match lut_lookup l v with
        | some r => some r
        | none => if a = v then some l.length else none := by
  intro l
  induction l with
  | nil => simp [lut_lookup]
  | cons y ys ih =>
    by_cases h : y = v
    · subst h
      simp [lut_lookup]
    · show lut_lookup (y :: (ys ++ [a])) v = _
      rw [lut_lookup, if_neg h, ih, lut_lookup, if_neg h]
      cases hys : lut_lookup ys v with
      | some r => simp
      | none =>
        simp only []
        by_cases ha : a = v
        · simp [ha, List.length_cons]
        · simp [ha]

theorem lut_lookup_range_map (x : Nat → Nat) : ∀ L : Nat,
    (∀ i j, i < L → j < L → x i = x j → i = j) →
    ∀ i, i < L → lut_lookup ((List.range L).map x) (x i) = some i := by
  intro L
  induction L with
  | zero => intro _ i hi; omega
  | succ n ih =>
    intro hinj i hi
    rw [List.range_succ, List.map_append]
    simp only [List.map_cons, List.map_nil]
    rw [lut_lookup_append]
    by_cases hiL : i < n
    · rw [ih (fun a b ha hb => hinj a b (by omega) (by omega)) i hiL]
    · have hieq : n = i := by omega
      subst hieq
      have hnone : lut_lookup ((List.range n).map x) (x n) = none := by
        rw [lut_lookup_eq_none_iff]
        intro hmem
        obtain ⟨j, hj, hxj⟩ := List.mem_map.mp hmem
        have hjL : j < n := List.mem_range.mp hj
        have := hinj j n (by omega) (by omega) hxj
        omega
      rw [hnone]
      simp

theorem build_loop_spec (d : timecode_def) (hb : 1 ≤ d.bits)
    (hs : d.seed < 2 ^ d.bits)
    (hinj : ∀ i j, i < d.length → j < d.length →
      (fun y => fwd y d)^[i] d.seed = (fun y => fwd y d)^[j] d.seed → i = j) :
    ∀ n i, i + n = d.length →
      build_loop d n ((fun y => fwd y d)^[i] d.seed)
          ((List.range i).map (fun j => (fun y => fwd y d)^[j] d.seed))
        = some ((List.range d.length).map
            (fun j => (fun y => fwd y d)^[j] d.seed)) := by
  have horb : ∀ k, (fun y => fwd y d)^[k] d.seed < 2 ^ d.bits := by
    intro k
    rw [(fwd_iter_eq d hb hs k).1]
    exact (fwd_iter_eq d hb hs k).2
  intro n
  induction n with
  | zero =>
    intro i hi
    have h0 : i = d.length := by omega
    subst h0
    rfl
  | succ n ih =>
    intro i hi
    rw [build_loop]
    have hnone : lut_lookup
        ((List.range i).map (fun j => (fun y => fwd y d)^[j] d.seed))
        ((fun y => fwd y d)^[i] d.seed) = none := by
      rw [lut_lookup_eq_none_iff]
      intro hmem
      obtain ⟨j, hj, hxj⟩ := List.mem_map.mp hmem
      have hji : j < i := List.mem_range.mp hj
      have := hinj j i (by omega) (by omega) hxj
      omega
    rw [if_neg (by rw [hnone]; simp)]
    dsimp only
    rw [if_neg (by simp [rev_fwd d hb _ (horb i)])]
    have hnext : fwd ((fun y => fwd y d)^[i] d.seed) d
        = (fun y => fwd y d)^[i+1] d.seed := by
      rw [Function.iterate_succ_apply']
    have hpush : lut_push
        ((List.range i).map (fun j => (fun y => fwd y d)^[j] d.seed))
        ((fun y => fwd y d)^[i] d.seed)
        = (List.range (i+1)).map (fun j => (fun y => fwd y d)^[j] d.seed) := by
      rw [lut_push, List.range_succ, List.map_append]
      simp
    rw [hnext, hpush]
    exact ih (i+1) (by omega)

theorem format_master (d : timecode_def) (M : Nat)
    (hb : 1 ≤ d.bits) (hs : d.seed < 2 ^ d.bits) (hlk : d.lookup = false)
    (hlen : d.length ≤ M)
    (hmp : Function.minimalPeriod (fwdL d.bits d.taps) d.seed = M) :
    (∀ i j, i < d.length → j < d.length → i ≠ j →
      (fun y => fwd y d)^[i] d.seed ≠ (fun y => fwd y d)^[j] d.seed) ∧
    (∀ i, i < d.length →
      rev ((fun y => fwd y d)^[i+1] d.seed) d = (fun y => fwd y d)^[i] d.seed) ∧
    build_lookup d = some { d with
        lookup := true
        lut := (List.range d.length).map
                 (fun j => (fun y => fwd y d)^[j] d.seed) } ∧
    (∀ i, i < d.length →
      lut_lookup ((List.range d.length).map
          (fun j => (fun y => fwd y d)^[j] d.seed))
        ((fun y => fwd y d)^[i] d.seed) = some i) := by
  have hinj : ∀ i j, i < d.length → j < d.length →
      (fun y => fwd y d)^[i] d.seed = (fun y => fwd y d)^[j] d.seed → i = j := by
    intro i j hi hj heq
    rw [(fwd_iter_eq d hb hs i).1, (fwd_iter_eq d hb hs j).1] at heq
    exact orbit_inj _ _ hmp hlen i j hi hj heq
  have horb : ∀ k, (fun y => fwd y d)^[k] d.seed < 2 ^ d.bits := by
    intro k
    rw [(fwd_iter_eq d hb hs k).1]
    exact (fwd_iter_eq d hb hs k).2
  refine ⟨?_, ?_, ?_, ?_⟩
  · intro i j hi hj hne heq
    exact hne (hinj i j hi hj heq)
  · intro i _
    rw [Function.iterate_succ_apply']
    exact rev_fwd d hb _ (horb i)
  · unfold build_lookup
    rw [hlk]
    rw [if_neg (by simp)]
    have hbl := build_loop_spec d hb hs hinj d.length 0 (by omega)
    simp only [Function.iterate_zero_apply, List.range_zero, List.map_nil] at hbl
    rw [hbl]
  · intro i hi
    exact lut_lookup_range_map _ d.length hinj i hi

/-- C6: for every format in the catalog the forward orbit of the seed is
pairwise distinct over `[0, length)`; the symmetry `rev (x_(i+1)) = x_i`
holds along it, so neither assertion of `build_loop` fails, `build_lookup`
succeeds, and the built lookup table maps the `i`-th state to position `i`. -/
theorem C6_orbit_distinct_lut :
    ∀ d ∈ timecodes,
      (∀ i j, i < d.length → j < d.length → i ≠ j →
        (fun y => fwd y d)^[i] d.seed ≠ (fun y => fwd y d)^[j] d.seed) ∧
      (∀ i, i < d.length →
        rev ((fun y => fwd y d)^[i+1] d.seed) d
          = (fun y => fwd y d)^[i] d.seed) ∧
      build_lookup d = some { d with
          lookup := true
          lut := (List.range d.length).map
                   (fun j => (fun y => fwd y d)^[j] d.seed) } ∧
      (∀ i, i < d.length →
        lut_lookup ((List.range d.length).map
            (fun j => (fun y => fwd y d)^[j] d.seed))
          ((fun y => fwd y d)^[i] d.seed) = some i) := by
  intro d hd
  simp only [timecodes, List.mem_cons, List.not_mem_nil, or_false] at hd
  rcases hd with rfl | rfl | rfl | rfl | rfl | rfl | rfl | rfl | rfl | rfl | rfl | rfl
  · exact format_master serato_2a 1048575 (by decide!) (by decide!) rfl
      (by decide!) cert_s2a_59017
  · exact format_master serato_2b 1048575 (by decide!) (by decide!) rfl
      (by decide!) cert_s2b_8f3c6
  · exact format_master serato_cd 1048575 (by decide!) (by decide!) rfl
      (by decide!) cert_scd_d8b40
  · exact format_master traktor_a 8388607 (by decide!) (by decide!) rfl
      (by decide!) cert_trk_134503
  · exact format_master traktor_b 8388607 (by decide!) (by decide!) rfl
      (by decide!) cert_trk_32066c
  · exact format_master traktor_mk2_a 20971515 (by decide!) (by decide!) rfl
      (by decide!) cert_mk2ab_339c1f
  · exact format_master traktor_mk2_b 20971515 (by decide!) (by decide!) rfl
      (by decide!) cert_mk2ab_20e73f
  · exact format_master traktor_mk2_cd 5182155653695296648150935159179260
      (by decide!) (by decide!) rfl (by decide!) cert_mk2cd_1f9fff
  · exact format_master mixvibes_v2 1048575 (by decide!) (by decide!) rfl
      (by decide!) cert_mvb_22c90
  · exact format_master mixvibes_7inch 1048575 (by decide!) (by decide!) rfl
      (by decide!) cert_mvb_22c90
  · exact format_master pioneer_a 1048575 (by decide!) (by decide!) rfl
      (by decide!) cert_pioa_78370
  · exact format_master pioneer_b 1048575 (by decide!) (by decide!) rfl
      (by decide!) cert_piob_f7012

/-- Witness for C6 at `serato_2a`: the first two orbit states differ, the
reverse step undoes the first forward step, the table builds, and the seed
sits at position 0. -/
theorem C6_orbit_distinct_lut_witness :
    serato_2a ∈ timecodes ∧
    0 < serato_2a.length ∧ 1 < serato_2a.length ∧ (0 : Nat) ≠ 1 ∧
    (fun y => fwd y serato_2a)^[0] serato_2a.seed
      ≠ (fun y => fwd y serato_2a)^[1] serato_2a.seed ∧
    rev ((fun y => fwd y serato_2a)^[0+1] serato_2a.seed) serato_2a
      = (fun y => fwd y serato_2a)^[0] serato_2a.seed ∧
    build_lookup serato_2a = some { serato_2a with
        lookup := true
        lut := (List.range serato_2a.length).map
                 (fun j => (fun y => fwd y serato_2a)^[j] serato_2a.seed) } ∧
    lut_lookup ((List.range serato_2a.length).map
        (fun j => (fun y => fwd y serato_2a)^[j] serato_2a.seed))
      ((fun y => fwd y serato_2a)^[0] serato_2a.seed) = some 0 :=
  have h := C6_orbit_distinct_lut serato_2a (List.mem_cons_self _ _)
  ⟨List.mem_cons_self _ _, by decide, by decide, by decide,
   h.1 0 1 (by decide) (by decide) (by decide),
   h.2.1 0 (by decide), h.2.2.1, h.2.2.2 0 (by decide)⟩
